import Mathlib

/-!
Verification of the PROMETHEE ranking engine (pypromethee).

The development shallowly embeds the Python sources `promethee/Criterion.py`,
`promethee/LinearCriterion.py`, `promethee/KernelCriterion.py`,
`promethee/Solution.py` and `promethee/Kernel.py` (the module files are the
current variant of the engine; the historical `promethee/__init__.py` variant
is superseded by them).

Modelling conventions, shared by all definitions below:

* Python floats are modelled as exact rationals.  None of the properties
  verified here depends on rounding: every discriminating comparison in the
  verified traces is far from equality, and all concrete counterexample
  inputs use dyadic rationals whose float arithmetic is exact.
* Python exceptions are modelled explicitly.  Operations that can raise
  return `Except PyError _`, or a `_ × Option PyError` pair when the
  partially mutated state at the raise point matters.  Division of plain
  Python floats by `0.0` raises `ZeroDivisionError`; the refined `PyFloat`
  model further down additionally tracks numpy scalar propagation, under
  which the same division instead silently yields NaN.
* Index-based loops `for i in range(0, nb_solutions)` over `self.values`
  are translated to traversals of the `values` list.  The two agree under
  the construction invariant `values.length = nb_solutions`, which holds
  for every kernel the Python API can build (`Reachable` below) and is
  carried as a hypothesis where a definition is used outside that setting.
  Loops whose bounds are load-bearing for a claim (`_assign_values`, which
  reads the matrix) keep their explicit `range` bounds.
* Python's `Solution.values` holds aliases of the cells owned by the
  criteria (`Kernel.__init__` appends `criterion.values[i]` to the solution
  at position `i`).  The embedding keeps each cell only in its criterion
  and reads the cell of solution `i` and criterion `c` as
  `criteria[c].values[i]`, which is what the aliased reads denote.
-/

namespace Promethee

/-- Exceptions that the embedded code can raise. -/
inductive PyError where
  | attributeError
  | indexError
  | zeroDivisionError
deriving DecidableEq

/-- Criterion direction, from `Criterion.CriterionType` (an `Enum` with the
two members `LinearMaximize` and `LinearMinimize`). -/
inductive CriterionType where
  | LinearMaximize
  | LinearMinimize
deriving DecidableEq

/-- Criterion policy data.  The abstract base class `Criterion` carries
`name`, `type` and `normalized`; the only concrete subclass in the source,
`LinearCriterion`, adds the parameters `p` and `q`.  The embedding merges
the two (a record with the base fields plus the linear parameters). -/
structure Criterion where
  name : String
  type : CriterionType
  normalized : Bool
  p : ℚ
  q : ℚ
deriving DecidableEq

/-- Constructor `LinearCriterion.__init__`: stores `p` and `q` and marks the
criterion as requiring normalization.  The Python constructor performs no
validation whatsoever on `p` and `q` (its defaults are `p=0.1`, `q=0.05`). -/
def LinearCriterion.new (name : String) (type : CriterionType) (p : ℚ) (q : ℚ) :
    Criterion :=
  { name := name, type := type, normalized := true, p := p, q := q }

/-- Recognized per-criterion configuration keys, from the dictionaries used
by `Criterion.apply_config` / `LinearCriterion.apply_config` and
`Kernel.apply_config` (`weight`, `p`, `q`; unknown keys are ignored by the
code, so they need no representation). -/
structure CriterionConfig where
  weight : Option ℚ
  p : Option ℚ
  q : Option ℚ
deriving DecidableEq

/-- Configuration update `LinearCriterion.apply_config`: overwrites `p` and
`q` when the corresponding keys are present.  No validation is performed. -/
def Criterion.apply_config (c : Criterion) (config : CriterionConfig) : Criterion :=
  { c with p := config.p.getD c.p, q := config.q.getD c.q }

/-- Preference computation `LinearCriterion.compute_pref`. -/
def Criterion.compute_pref (c : Criterion) (u v : ℚ) : ℚ :=
  let d := |u - v|
  if d ≤ c.q then
    0
  else if d ≥ c.p then
    match c.type with
    | CriterionType.LinearMaximize => if u > v then 1 else 0
    | CriterionType.LinearMinimize => if u < v then 1 else 0
  else
    match c.type with
    | CriterionType.LinearMaximize => if u > v then (d - c.q) / (c.p - c.q) else 0
    | CriterionType.LinearMinimize => if u < v then (d - c.q) / (c.p - c.q) else 0

/-- The direction-consistent comparison of the specification: `u > v` for a
maximized criterion, `u < v` for a minimized one. -/
def directionConsistent (t : CriterionType) (u v : ℚ) : Prop :=
  match t with
  | CriterionType.LinearMaximize => u > v
  | CriterionType.LinearMinimize => u < v

instance (t : CriterionType) (u v : ℚ) : Decidable (directionConsistent t u v) := by
  unfold directionConsistent
  cases t <;> exact inferInstance

/-- Per-(criterion, solution) cell, from `KernelCriterion.CriterionSolutionValue`.
The field `fit_minus` does not appear in the class: it is the stray attribute
that the typo in `compute_fis` (`val1.fi_plus = val1.fit_minus = 0.0`)
creates dynamically on the object.  It is written there and never read; the
embedding carries it (initialized to 0) to keep that statement faithful. -/
structure CriterionSolutionValue where
  fi : ℚ
  fi_plus : ℚ
  fi_minus : ℚ
  value : ℚ
  used_value : ℚ
  fit_minus : ℚ
deriving DecidableEq

/-- Constructor `CriterionSolutionValue.__init__`: all numeric fields 0. -/
def CriterionSolutionValue.new : CriterionSolutionValue :=
  { fi := 0, fi_plus := 0, fi_minus := 0, value := 0, used_value := 0, fit_minus := 0 }

/-- Per-solution record, from `Solution.Solution` (the aliased `values` list
is represented through the criteria, see the module docstring). -/
structure Solution where
  id : ℕ
  fi : ℚ
  fi_plus : ℚ
  fi_minus : ℚ
deriving DecidableEq

/-- Constructor `Solution.__init__`. -/
def Solution.new (id : ℕ) : Solution :=
  { id := id, fi := 0, fi_plus := 0, fi_minus := 0 }

/-- Kernel-side criterion, from `KernelCriterion.KernelCriterion`. -/
structure KernelCriterion where
  id : ℕ
  criterion : Option Criterion
  weight : ℚ
  nb_solutions : ℕ
  values : List CriterionSolutionValue
deriving DecidableEq

/-- Constructor `KernelCriterion.__init__`: no policy, weight 0, one fresh
cell per solution. -/
def KernelCriterion.new (id : ℕ) (nb_solutions : ℕ) : KernelCriterion :=
  { id := id, criterion := none, weight := 0, nb_solutions := nb_solutions,
    values := List.replicate nb_solutions CriterionSolutionValue.new }

/-- Maximum of the cell raw values, as computed by the loop in
`KernelCriterion.normalize` (`max` updated from `values[0].value` over the
remaining cells). -/
def foldMax (a : ℚ) (l : List CriterionSolutionValue) : ℚ :=
  l.foldl (fun mx v => if mx < v.value then v.value else mx) a

/-- Minimum of the cell raw values, as computed by the same loop. -/
def foldMin (a : ℚ) (l : List CriterionSolutionValue) : ℚ :=
  l.foldl (fun mn v => if mn > v.value then v.value else mn) a

/-- Method `KernelCriterion.normalize`.  Accessing `self.criterion.normalized`
with no assigned criterion raises `AttributeError`; `self.values[0]` on an
empty cell list raises `IndexError`.  The single Python loop updates `min`
and `max` together; the two folds compute the same two values. -/
def KernelCriterion.normalize (kc : KernelCriterion) : Except PyError KernelCriterion :=
  match kc.criterion with
  | none => Except.error PyError.attributeError
  | some c =>
    if c.normalized then
      match kc.values with
      | [] => Except.error PyError.indexError
      | v0 :: rest =>
        let mx := foldMax v0.value rest
        let mn := foldMin v0.value rest
        let diff := mx - mn
        if diff ≠ 0 then
          let vals := kc.values.map (fun v => { v with used_value := (v.value - mn) / diff })
          Except.ok { kc with values := vals }
        else
          let vals := kc.values.map (fun v => { v with used_value := 1 })
          Except.ok { kc with values := vals }
    else
      let vals := kc.values.map (fun v => { v with used_value := v.value })
      Except.ok { kc with values := vals }

/-- Method `KernelCriterion.compute_fis`.  The reset line of the source is
`val1.fi_plus = val1.fit_minus = 0.0`: it resets `fi_plus` and the stray
attribute `fit_minus`, while `fi_minus` keeps its previous value and the
inner loop accumulates on top of it.  The inner loop reads only the
`used_value` field of the other cells, which `compute_fis` never writes, so
mapping over the zipped list reproduces the in-place mutation.  `zip`
truncates to the shorter list in Python as it does here; cells beyond the
zipped prefix are left as they are but still receive the final
`fi = fi_plus - fi_minus` assignment. -/
def KernelCriterion.compute_fis (kc : KernelCriterion) (solutions : List Solution) :
    Except PyError KernelCriterion :=
  match kc.criterion with
  | none => Except.error PyError.attributeError
  | some c =>
    let pairs := solutions.zip kc.values
    let updated := pairs.map (fun p1 =>
      let start := { p1.2 with fi_plus := 0, fit_minus := 0 }
      pairs.foldl (fun v1 p2 =>
        if p1.1.id = p2.1.id then v1
        else { v1 with
                fi_plus := v1.fi_plus + c.compute_pref v1.used_value p2.2.used_value,
                fi_minus := v1.fi_minus + c.compute_pref p2.2.used_value v1.used_value })
        start)
    let allValues := updated ++ kc.values.drop pairs.length
    Except.ok { kc with values := allValues.map (fun v => { v with fi := v.fi_plus - v.fi_minus }) }

/-- Input matrix.  The numpy array is a sized 2-dimensional array; indexing
`matrix[i, j]` raises `IndexError` outside its bounds, and entries anywhere
inside the bounds are readable even when the array is larger than
`(nb_solutions, nb_criteria)`. -/
structure Mat where
  rows : ℕ
  cols : ℕ
  entry : ℕ → ℕ → ℚ

/-- Bounds-checked matrix read `matrix[i, j]`. -/
def Mat.get (m : Mat) (i : ℕ) (j : ℕ) : Except PyError ℚ :=
  if i < m.rows ∧ j < m.cols then Except.ok (m.entry i j) else Except.error PyError.indexError

/-- Bounds-checked write of the `value` field of `values[i]` (the assignment
target `criterion.values[solution_id].value = ...`). -/
def setCellValue (vals : List CriterionSolutionValue) (i : ℕ) (x : ℚ) :
    Option (List CriterionSolutionValue) :=
  match vals.get? i with
  | none => none
  | some v => some (vals.set i { v with value := x })

/-- Inner loop of `Kernel._assign_values` for one criterion: iterates
`solution_id = start, start+1, ...` for `count` steps, reading
`matrix[solution_id, cid]` and writing the cell values.  On an exception the
cells updated so far are kept and the error is reported. -/
def assignLoop (m : Mat) (cid : ℕ) :
    List CriterionSolutionValue → ℕ → ℕ → (List CriterionSolutionValue × Option PyError)
  | vals, _, 0 => (vals, none)
  | vals, s, Nat.succ count =>
    match m.get s cid with
    | Except.error e => (vals, some e)
    | Except.ok x =>
      match setCellValue vals s x with
      | none => (vals, some PyError.indexError)
      | some vals1 => assignLoop m cid vals1 (s + 1) count

/-- One criterion's part of `Kernel._assign_values`: runs the inner loop for
`solution_id in range(0, nb_solutions)`. -/
def assignCriterion (m : Mat) (n : ℕ) (kc : KernelCriterion) :
    (KernelCriterion × Option PyError) :=
  let r := assignLoop m kc.id kc.values 0 n
  ({ kc with values := r.1 }, r.2)

/-- Outer loop of `Kernel._assign_values` over the criteria; an exception
leaves the remaining criteria untouched. -/
def assignAll (m : Mat) (n : ℕ) :
    List KernelCriterion → (List KernelCriterion × Option PyError)
  | [] => ([], none)
  | kc :: rest =>
    let r := assignCriterion m n kc
    match r.2 with
    | some e => (r.1 :: rest, some e)
    | none =>
      let rr := assignAll m n rest
      (r.1 :: rr.1, rr.2)

/-- Loop of `Kernel.rank` over the criteria: `criterion.normalize()`, then
`criterion.compute_fis(self)`, then `total_weight += criterion.weight`.
The returned rational is the accumulated total weight (meaningful only when
no exception occurred, as in the source, where the exception aborts `rank`
before the weight is used). -/
def processCriteria (solutions : List Solution) :
    List KernelCriterion → (List KernelCriterion × ℚ × Option PyError)
  | [] => ([], 0, none)
  | kc :: rest =>
    match kc.normalize with
    | Except.error e => (kc :: rest, 0, some e)
    | Except.ok kc1 =>
      match kc1.compute_fis solutions with
      | Except.error e => (kc1 :: rest, 0, some e)
      | Except.ok kc2 =>
        let rr := processCriteria solutions rest
        match rr.2.2 with
        | some e => (kc2 :: rr.1, 0, some e)
        | none => (kc2 :: rr.1, kc2.weight + rr.2.1, none)

/-- Cell of criterion `kc` for the solution at position `s`: the object that
`solution.values` aliases for this criterion (see the module docstring).
Under the construction invariant the index is always in range; the default
is irrelevant there. -/
def solutionCell (kc : KernelCriterion) (s : ℕ) : CriterionSolutionValue :=
  kc.values.getD s CriterionSolutionValue.new

/-- Weighted flow sum `Σ_c weight_c * cell(c, s).fi_plus` accumulated by the
flow loop of `Kernel.rank` for the solution at position `s`. -/
def weightedSumPlus (criteria : List KernelCriterion) (s : ℕ) : ℚ :=
  criteria.foldl (fun a kc => a + kc.weight * (solutionCell kc s).fi_plus) 0

/-- Weighted flow sum `Σ_c weight_c * cell(c, s).fi_minus` accumulated by the
flow loop of `Kernel.rank` for the solution at position `s`. -/
def weightedSumMinus (criteria : List KernelCriterion) (s : ℕ) : ℚ :=
  criteria.foldl (fun a kc => a + kc.weight * (solutionCell kc s).fi_minus) 0

/-- Flow computation of `Kernel.rank` for one solution.  The source resets
`fi_minus` and `fi_plus` to 0.0 and accumulates both sums in one loop over
`zip(self.criteria, solution.values)`; the two folds compute the same sums.
Both `/=` divisions divide by `total_weight * (len(self.solutions) - 1)`;
with plain Python floats a zero divisor raises `ZeroDivisionError` at the
first division, at which point the solution holds the undivided sums and
its `fi` is unchanged. -/
def flowSolution (criteria : List KernelCriterion) (divisor : ℚ) (s : ℕ)
    (sol : Solution) : (Solution × Option PyError) :=
  let fp := weightedSumPlus criteria s
  let fm := weightedSumMinus criteria s
  if divisor = 0 then
    ({ sol with fi_plus := fp, fi_minus := fm }, some PyError.zeroDivisionError)
  else
    let fp1 := fp / divisor
    let fm1 := fm / divisor
    ({ sol with fi_plus := fp1, fi_minus := fm1, fi := fp1 - fm1 }, none)

/-- Flow loop of `Kernel.rank` over the solutions (`s` is the position of
the first solution of the list in `self.solutions`).  An exception leaves
the remaining solutions untouched. -/
def flowLoop (criteria : List KernelCriterion) (divisor : ℚ) :
    List Solution → ℕ → (List Solution × Option PyError)
  | [], _ => ([], none)
  | sol :: rest, s =>
    let r := flowSolution criteria divisor s sol
    match r.2 with
    | some e => (r.1 :: rest, some e)
    | none =>
      let rr := flowLoop criteria divisor rest (s + 1)
      (r.1 :: rr.1, rr.2)

/-- Sort relation of the final ranking: `a` may precede `b` when
`b.fi ≤ a.fi` (descending net flow). -/
def solGE (a b : Solution) : Prop := b.fi ≤ a.fi

instance : DecidableRel solGE := fun a b => inferInstanceAs (Decidable (b.fi ≤ a.fi))

instance : IsTotal Solution solGE := ⟨fun a b => le_total b.fi a.fi⟩

instance : IsTrans Solution solGE := ⟨fun _ _ _ h1 h2 => le_trans h2 h1⟩

/-- The final `self.ordered_solutions.sort(reverse=True, key=lambda s: s.fi)`.
Python's sort is the stable descending sort by the key; any two stable sorts
of a list under the same total preorder coincide, and `List.insertionSort`
with `solGE` is stable (`List.pair_sublist_insertionSort`), so it is the
same function. -/
def sortSolutions (l : List Solution) : List Solution :=
  List.insertionSort solGE l

/-- The PROMETHEE kernel, from `Kernel.Kernel`.  The `matrix` attribute of
the Python object is only ever written (`None` in the constructor and never
read back), so it is not represented. -/
structure Kernel where
  nb_criteria : ℕ
  nb_solutions : ℕ
  criteria : List KernelCriterion
  solutions : List Solution
  ordered_solutions : List Solution
deriving DecidableEq

/-- Constructor `Kernel.__init__`. -/
def Kernel.new (nb_criteria : ℕ) (nb_solutions : ℕ) : Kernel :=
  { nb_criteria := nb_criteria
    nb_solutions := nb_solutions
    criteria := (List.range nb_criteria).map (fun i => KernelCriterion.new i nb_solutions)
    solutions := (List.range nb_solutions).map Solution.new
    ordered_solutions := [] }

/-- Method `Kernel.set_criterion` (out-of-range identifiers would raise
`IndexError` on `self.criteria[id]`). -/
def Kernel.set_criterion (k : Kernel) (id : ℕ) (criterion : Criterion) (weight : ℚ) :
    (Kernel × Option PyError) :=
  match k.criteria.get? id with
  | none => (k, some PyError.indexError)
  | some kc =>
    ({ k with criteria := k.criteria.set id { kc with criterion := some criterion, weight := weight } },
     none)

/-- Method `Kernel._assign_values` as called by `rank`. -/
def Kernel.assign_values (k : Kernel) (m : Mat) : (Kernel × Option PyError) :=
  let r := assignAll m k.nb_solutions k.criteria
  ({ k with criteria := r.1 }, r.2)

/-- Method `Kernel.rank`, with the partially mutated kernel returned next to
the exception when one is raised. -/
def Kernel.rank (k : Kernel) (m : Mat) : (Kernel × Option PyError) :=
  if k.nb_solutions < 2 ∨ k.nb_criteria = 0 then
    ({ k with ordered_solutions := k.solutions }, none)
  else
    let a := k.assign_values m
    match a.2 with
    | some e => (a.1, some e)
    | none =>
      let pr := processCriteria a.1.solutions a.1.criteria
      let k2 := { a.1 with criteria := pr.1 }
      match pr.2.2 with
      | some e => (k2, some e)
      | none =>
        let divisor := pr.2.1 * ((k2.solutions.length : ℚ) - 1)
        let fl := flowLoop k2.criteria divisor k2.solutions 0
        let k3 := { k2 with solutions := fl.1 }
        match fl.2 with
        | some e => (k3, some e)
        | none => ({ k3 with ordered_solutions := sortSolutions k3.solutions }, none)

/-- Total weight of the kernel's criteria (the value `total_weight` holds
after the criteria loop of a successful `rank`). -/
def Kernel.totalWeight (k : Kernel) : ℚ :=
  (k.criteria.map KernelCriterion.weight).sum

/-- Kernel states constructible through the public API: a fresh kernel,
followed by any sequence of successful `set_criterion` calls and `rank`
calls (aborted or not). -/
inductive Reachable : Kernel → Prop where
  | new (nb_criteria nb_solutions : ℕ) : Reachable (Kernel.new nb_criteria nb_solutions)
  | set_criterion {k k' : Kernel} (id : ℕ) (c : Criterion) (w : ℚ) :
      Reachable k → k.set_criterion id c w = (k', none) → Reachable k'
  | rank {k k' : Kernel} (m : Mat) {e : Option PyError} :
      Reachable k → k.rank m = (k', e) → Reachable k'

/-- Criterion fixture for the `compute_fis` evaluations: Maximize,
`p = 1/4`, `q = 1/16` (all values dyadic, so float arithmetic on them is
exact). -/
def critMax : Criterion := LinearCriterion.new "crit" CriterionType.LinearMaximize (1/4) (1/16)

/-- Kernel criterion fixture whose first cell enters `compute_fis` with the
prior flow value `fi_minus = 5` (used values already normalized to 0 and
1). -/
def kcPrior : KernelCriterion :=
  { id := 0, criterion := some critMax, weight := 1, nb_solutions := 2,
    values :=
      [ { fi := 0, fi_plus := 0, fi_minus := 5, value := 0, used_value := 0, fit_minus := 0 },
        { fi := 0, fi_plus := 0, fi_minus := 0, value := 1, used_value := 1, fit_minus := 0 } ] }

/-- Kernel fixture for the idempotence evaluation: 2 solutions, 1 criterion
(Maximize, `p = 1/4`, `q = 1/16`), weight 1. -/
def kernelTwoSol : Kernel :=
  ((Kernel.new 1 2).set_criterion 0
    (LinearCriterion.new "crit" CriterionType.LinearMaximize (1/4) (1/16)) 1).1

/-- Matrix fixture `[[0], [1]]` for the idempotence evaluation. -/
def matTwoSol : Mat := { rows := 2, cols := 1, entry := fun i _ => if i = 0 then 0 else 1 }

/-- Structural invariant of every kernel built through the public API:
solution identifiers are `0..nb_solutions-1` in order, criterion
identifiers are `0..nb_criteria-1` in order, and every criterion holds one
cell per solution. -/
def KernelInv (k : Kernel) : Prop :=
  k.solutions.map Solution.id = List.range k.nb_solutions ∧
  k.criteria.map KernelCriterion.id = List.range k.nb_criteria ∧
  ∀ kc ∈ k.criteria, kc.values.length = k.nb_solutions

/-- A 3-row, 2-column matrix, larger in both dimensions than the
two-solution one-criterion fixture kernel expects. -/
def matLarger : Mat :=
  { rows := 3, cols := 2, entry := fun i _ => if i = 0 then 0 else 1 }

/-- A 1x1 matrix, smaller than the fixture kernel expects. -/
def matSmaller : Mat := { rows := 1, cols := 1, entry := fun _ _ => 0 }

end Promethee

namespace PyFloat

/-!
Refined scalar model for the error-handling behavior of `Kernel.rank`.

The matrix handed to `rank` is a numpy array, so every raw cell value read
by `_assign_values` is a numpy `float64` scalar, and arithmetic involving a
numpy scalar yields a numpy scalar.  This matters exactly once: dividing a
plain Python float by `0.0` raises `ZeroDivisionError`, while dividing a
numpy scalar by `0.0` only emits a `RuntimeWarning` and silently produces
NaN or a signed infinity.  `PyVal` models a scalar as an exact rational
magnitude (or NaN / signed infinity) together with the flag `np` saying
whether it is a numpy scalar; binary operations propagate the flag
(`numpy op anything` is numpy).  IEEE special values follow the usual
rules; the two signed zeros are conflated into `0`, which is sound for
every trace below (`0.0` only arises as an exact sum of zeros and as a
divisor, and neither use distinguishes the sign).  Comparisons involving
NaN are false, as in Python.
-/

/-- A Python/numpy floating-point scalar: a finite rational, a signed
infinity, or NaN, each tagged with whether it is a numpy `float64`. -/
inductive PyVal where
  | fin (v : ℚ) (np : Bool)
  | inf (pos : Bool) (np : Bool)
  | nan (np : Bool)
deriving DecidableEq

/-- A plain Python float literal or value. -/
def py (v : ℚ) : PyVal := PyVal.fin v false

/-- A numpy `float64` scalar (a matrix entry). -/
def npv (v : ℚ) : PyVal := PyVal.fin v true

/-- The numpy-scalar flag of a value. -/
def PyVal.isnp : PyVal → Bool
  | PyVal.fin _ b => b
  | PyVal.inf _ b => b
  | PyVal.nan b => b

/-- Addition. -/
def PyVal.add : PyVal → PyVal → PyVal
  | PyVal.nan ba, y => PyVal.nan (ba || y.isnp)
  | x, PyVal.nan bb => PyVal.nan (x.isnp || bb)
  | PyVal.fin a ba, PyVal.fin b bb => PyVal.fin (a + b) (ba || bb)
  | PyVal.fin _ ba, PyVal.inf p bb => PyVal.inf p (ba || bb)
  | PyVal.inf p ba, PyVal.fin _ bb => PyVal.inf p (ba || bb)
  | PyVal.inf p ba, PyVal.inf q bb =>
      if p = q then PyVal.inf p (ba || bb) else PyVal.nan (ba || bb)

/-- Subtraction. -/
def PyVal.sub : PyVal → PyVal → PyVal
  | PyVal.nan ba, y => PyVal.nan (ba || y.isnp)
  | x, PyVal.nan bb => PyVal.nan (x.isnp || bb)
  | PyVal.fin a ba, PyVal.fin b bb => PyVal.fin (a - b) (ba || bb)
  | PyVal.fin _ ba, PyVal.inf p bb => PyVal.inf (!p) (ba || bb)
  | PyVal.inf p ba, PyVal.fin _ bb => PyVal.inf p (ba || bb)
  | PyVal.inf p ba, PyVal.inf q bb =>
      if p = q then PyVal.nan (ba || bb) else PyVal.inf p (ba || bb)

/-- Multiplication (`0 * inf` is NaN). -/
def PyVal.mul : PyVal → PyVal → PyVal
  | PyVal.nan ba, y => PyVal.nan (ba || y.isnp)
  | x, PyVal.nan bb => PyVal.nan (x.isnp || bb)
  | PyVal.fin a ba, PyVal.fin b bb => PyVal.fin (a * b) (ba || bb)
  | PyVal.fin a ba, PyVal.inf p bb =>
      if a = 0 then PyVal.nan (ba || bb) else PyVal.inf (p = decide (0 < a)) (ba || bb)
  | PyVal.inf p ba, PyVal.fin b bb =>
      if b = 0 then PyVal.nan (ba || bb) else PyVal.inf (p = decide (0 < b)) (ba || bb)
  | PyVal.inf p ba, PyVal.inf q bb => PyVal.inf (p = q) (ba || bb)

/-- Absolute value (`abs`). -/
def PyVal.pabs : PyVal → PyVal
  | PyVal.fin a b => PyVal.fin |a| b
  | PyVal.inf _ b => PyVal.inf true b
  | PyVal.nan b => PyVal.nan b

/-- Strict comparison `x < y`; false when either side is NaN. -/
def PyVal.lt : PyVal → PyVal → Bool
  | PyVal.fin a _, PyVal.fin b _ => a < b
  | PyVal.fin _ _, PyVal.inf p _ => p
  | PyVal.inf p _, PyVal.fin _ _ => !p
  | PyVal.inf p _, PyVal.inf q _ => !p && q
  | _, _ => false

/-- Comparison `x <= y`; false when either side is NaN. -/
def PyVal.le : PyVal → PyVal → Bool
  | PyVal.fin a _, PyVal.fin b _ => a ≤ b
  | PyVal.fin _ _, PyVal.inf p _ => p
  | PyVal.inf p _, PyVal.fin _ _ => !p
  | PyVal.inf p _, PyVal.inf q _ => p = q || (!p && q)
  | _, _ => false

/-- Equality test `x == y`; false when either side is NaN. -/
def PyVal.peq : PyVal → PyVal → Bool
  | PyVal.fin a _, PyVal.fin b _ => a = b
  | PyVal.inf p _, PyVal.inf q _ => p = q
  | _, _ => false

/-- Division.  A zero divisor raises `ZeroDivisionError` when the operation
is between plain Python floats; when a numpy scalar is involved it yields
NaN (for a 0 or NaN dividend) or a signed infinity, with only a warning. -/
def PyVal.div (x y : PyVal) : Except Promethee.PyError PyVal :=
  match y with
  | PyVal.fin b bb =>
    if b = 0 then
      if x.isnp || bb then
        Except.ok (match x with
          | PyVal.fin a _ => if a = 0 then PyVal.nan true else PyVal.inf (decide (0 < a)) true
          | PyVal.inf p _ => PyVal.inf p true
          | PyVal.nan _ => PyVal.nan true)
      else
        Except.error Promethee.PyError.zeroDivisionError
    else
      Except.ok (match x with
        | PyVal.fin a ba => PyVal.fin (a / b) (ba || bb)
        | PyVal.inf p ba => PyVal.inf (p = decide (0 < b)) (ba || bb)
        | PyVal.nan ba => PyVal.nan (ba || bb))
  | PyVal.inf _ bb =>
    Except.ok (match x with
      | PyVal.fin _ ba => PyVal.fin 0 (ba || bb)
      | PyVal.inf _ ba => PyVal.nan (ba || bb)
      | PyVal.nan ba => PyVal.nan (ba || bb))
  | PyVal.nan bb => Except.ok (PyVal.nan (x.isnp || bb))

/-- Preference computation `LinearCriterion.compute_pref` over tagged
scalars.  The parameters `p` and `q` are plain Python floats; comparisons
with NaN are false, so a NaN difference falls through to the final branch
and returns `0.0` there.  The division `(d - q) / (p - q)` is the one of
the source; it propagates a possible exception (none arises in fact, since
the branch guarantees `q < d < p` and hence `p - q ≠ 0`). -/
def compute_pref (c : Promethee.Criterion) (u v : PyVal) :
    Except Promethee.PyError PyVal :=
  let d := (u.sub v).pabs
  if d.le (py c.q) then
    Except.ok (py 0)
  else if (py c.p).le d then
    match c.type with
    | Promethee.CriterionType.LinearMaximize =>
        Except.ok (if v.lt u then py 1 else py 0)
    | Promethee.CriterionType.LinearMinimize =>
        Except.ok (if u.lt v then py 1 else py 0)
  else
    match c.type with
    | Promethee.CriterionType.LinearMaximize =>
        if v.lt u then (d.sub (py c.q)).div ((py c.p).sub (py c.q)) else Except.ok (py 0)
    | Promethee.CriterionType.LinearMinimize =>
        if u.lt v then (d.sub (py c.q)).div ((py c.p).sub (py c.q)) else Except.ok (py 0)

/-- Per-(criterion, solution) cell over tagged scalars (`fit_minus` is the
stray attribute of the `compute_fis` typo, as in the rational model). -/
structure Cell where
  fi : PyVal
  fi_plus : PyVal
  fi_minus : PyVal
  value : PyVal
  used_value : PyVal
  fit_minus : PyVal
deriving DecidableEq

/-- Fresh cell: all fields the plain Python float `0.0`. -/
def Cell.new : Cell :=
  { fi := py 0, fi_plus := py 0, fi_minus := py 0, value := py 0,
    used_value := py 0, fit_minus := py 0 }

/-- Per-solution record over tagged scalars. -/
structure Solution where
  id : ℕ
  fi : PyVal
  fi_plus : PyVal
  fi_minus : PyVal
deriving DecidableEq

/-- Fresh solution record. -/
def Solution.new (id : ℕ) : Solution :=
  { id := id, fi := py 0, fi_plus := py 0, fi_minus := py 0 }

/-- Kernel-side criterion over tagged scalars.  The weight is always a
plain Python float (`set_criterion` argument or `float(config["weight"])`),
represented by its rational value. -/
structure KernelCriterion where
  id : ℕ
  criterion : Option Promethee.Criterion
  weight : ℚ
  nb_solutions : ℕ
  values : List Cell
deriving DecidableEq

/-- Constructor `KernelCriterion.__init__` over tagged scalars. -/
def KernelCriterion.new (id : ℕ) (nb_solutions : ℕ) : KernelCriterion :=
  { id := id, criterion := none, weight := 0, nb_solutions := nb_solutions,
    values := List.replicate nb_solutions Cell.new }

/-- Normalization loop of `KernelCriterion.normalize` over tagged scalars:
`used_value = (value - min) / diff` cell by cell, propagating a potential
exception of the division. -/
def normalizeVals (mn diff : PyVal) : List Cell → Except Promethee.PyError (List Cell)
  | [] => Except.ok []
  | v :: rest =>
    match (v.value.sub mn).div diff with
    | Except.error e => Except.error e
    | Except.ok u =>
      match normalizeVals mn diff rest with
      | Except.error e => Except.error e
      | Except.ok rest1 => Except.ok ({ v with used_value := u } :: rest1)

/-- Method `KernelCriterion.normalize` over tagged scalars (the structure is
that of the rational model; `diff != 0.0` is the Python float inequality
test, true for NaN). -/
def KernelCriterion.normalize (kc : KernelCriterion) :
    Except Promethee.PyError KernelCriterion :=
  match kc.criterion with
  | none => Except.error Promethee.PyError.attributeError
  | some c =>
    if c.normalized then
      match kc.values with
      | [] => Except.error Promethee.PyError.indexError
      | v0 :: rest =>
        let mx := rest.foldl (fun mx v => if mx.lt v.value then v.value else mx) v0.value
        let mn := rest.foldl (fun mn v => if v.value.lt mn then v.value else mn) v0.value
        let diff := mx.sub mn
        if !(diff.peq (py 0)) then
          match normalizeVals mn diff kc.values with
          | Except.error e => Except.error e
          | Except.ok vals => Except.ok { kc with values := vals }
        else
          let vals := kc.values.map (fun v => { v with used_value := py 1 })
          Except.ok { kc with values := vals }
    else
      let vals := kc.values.map (fun v => { v with used_value := v.value })
      Except.ok { kc with values := vals }

/-- Inner pairwise loop of `KernelCriterion.compute_fis` over tagged
scalars: accumulates the two preference sums of the cell `v1` (of the
solution with identifier `sid`) over the zipped pairs. -/
def fisInner (c : Promethee.Criterion) (sid : ℕ) :
    Cell → List (Solution × Cell) → Except Promethee.PyError Cell
  | v1, [] => Except.ok v1
  | v1, p2 :: rest =>
    if sid = p2.1.id then fisInner c sid v1 rest
    else
      match compute_pref c v1.used_value p2.2.used_value with
      | Except.error e => Except.error e
      | Except.ok a =>
        match compute_pref c p2.2.used_value v1.used_value with
        | Except.error e => Except.error e
        | Except.ok b =>
          fisInner c sid
            { v1 with fi_plus := v1.fi_plus.add a, fi_minus := v1.fi_minus.add b } rest

/-- Outer pairwise loop of `KernelCriterion.compute_fis` over tagged
scalars; each cell is reset as by `val1.fi_plus = val1.fit_minus = 0.0`
(the typo leaves `fi_minus` unreset). -/
def fisOuter (c : Promethee.Criterion) (pairs : List (Solution × Cell)) :
    List (Solution × Cell) → Except Promethee.PyError (List Cell)
  | [] => Except.ok []
  | p1 :: rest =>
    match fisInner c p1.1.id { p1.2 with fi_plus := py 0, fit_minus := py 0 } pairs with
    | Except.error e => Except.error e
    | Except.ok v1 =>
      match fisOuter c pairs rest with
      | Except.error e => Except.error e
      | Except.ok rest1 => Except.ok (v1 :: rest1)

/-- Method `KernelCriterion.compute_fis` over tagged scalars, with the
`fi_minus` reset typo modelled exactly as in the rational model. -/
def KernelCriterion.compute_fis (kc : KernelCriterion) (solutions : List Solution) :
    Except Promethee.PyError KernelCriterion :=
  match kc.criterion with
  | none => Except.error Promethee.PyError.attributeError
  | some c =>
    let pairs := solutions.zip kc.values
    match fisOuter c pairs pairs with
    | Except.error e => Except.error e
    | Except.ok updated =>
      let allValues := updated ++ kc.values.drop pairs.length
      Except.ok { kc with values := allValues.map (fun v => { v with fi := v.fi_plus.sub v.fi_minus }) }

/-- Bounds-checked matrix read; a numpy array entry is a numpy scalar. -/
def matGet (m : Promethee.Mat) (i : ℕ) (j : ℕ) : Except Promethee.PyError PyVal :=
  if i < m.rows ∧ j < m.cols then Except.ok (npv (m.entry i j))
  else Except.error Promethee.PyError.indexError

/-- Bounds-checked write of the `value` field of `values[i]`. -/
def setCellValue (vals : List Cell) (i : ℕ) (x : PyVal) : Option (List Cell) :=
  match vals.get? i with
  | none => none
  | some v => some (vals.set i { v with value := x })

/-- Inner loop of `Kernel._assign_values` over tagged scalars. -/
def assignLoop (m : Promethee.Mat) (cid : ℕ) :
    List Cell → ℕ → ℕ → (List Cell × Option Promethee.PyError)
  | vals, _, 0 => (vals, none)
  | vals, s, Nat.succ count =>
    match matGet m s cid with
    | Except.error e => (vals, some e)
    | Except.ok x =>
      match setCellValue vals s x with
      | none => (vals, some Promethee.PyError.indexError)
      | some vals1 => assignLoop m cid vals1 (s + 1) count

/-- One criterion's part of `Kernel._assign_values` over tagged scalars. -/
def assignCriterion (m : Promethee.Mat) (n : ℕ) (kc : KernelCriterion) :
    (KernelCriterion × Option Promethee.PyError) :=
  let r := assignLoop m kc.id kc.values 0 n
  ({ kc with values := r.1 }, r.2)

/-- Outer loop of `Kernel._assign_values` over tagged scalars. -/
def assignAll (m : Promethee.Mat) (n : ℕ) :
    List KernelCriterion → (List KernelCriterion × Option Promethee.PyError)
  | [] => ([], none)
  | kc :: rest =>
    let r := assignCriterion m n kc
    match r.2 with
    | some e => (r.1 :: rest, some e)
    | none =>
      let rr := assignAll m n rest
      (r.1 :: rr.1, rr.2)

/-- Criteria loop of `Kernel.rank` over tagged scalars (normalize, pairwise
flows, weight accumulation). -/
def processCriteria (solutions : List Solution) :
    List KernelCriterion → (List KernelCriterion × ℚ × Option Promethee.PyError)
  | [] => ([], 0, none)
  | kc :: rest =>
    match kc.normalize with
    | Except.error e => (kc :: rest, 0, some e)
    | Except.ok kc1 =>
      match kc1.compute_fis solutions with
      | Except.error e => (kc1 :: rest, 0, some e)
      | Except.ok kc2 =>
        let rr := processCriteria solutions rest
        match rr.2.2 with
        | some e => (kc2 :: rr.1, 0, some e)
        | none => (kc2 :: rr.1, kc2.weight + rr.2.1, none)

/-- Cell of criterion `kc` for the solution at position `s` (the alias view,
as in the rational model). -/
def solutionCell (kc : KernelCriterion) (s : ℕ) : Cell :=
  kc.values.getD s Cell.new

/-- Weighted `fi_plus` sum of the flow loop for the solution at position
`s`, starting from the plain Python float `0.0`. -/
def weightedSumPlus (criteria : List KernelCriterion) (s : ℕ) : PyVal :=
  criteria.foldl (fun a kc => a.add ((py kc.weight).mul (solutionCell kc s).fi_plus)) (py 0)

/-- Weighted `fi_minus` sum of the flow loop for the solution at position
`s`. -/
def weightedSumMinus (criteria : List KernelCriterion) (s : ℕ) : PyVal :=
  criteria.foldl (fun a kc => a.add ((py kc.weight).mul (solutionCell kc s).fi_minus)) (py 0)

/-- Flow computation of `Kernel.rank` for one solution over tagged scalars.
The divisor `total_weight * (len(self.solutions) - 1)` is a plain Python
float.  Each of the two `/=` divisions may raise; the state at the raise
point keeps the values assigned so far. -/
def flowSolution (criteria : List KernelCriterion) (divisor : ℚ) (s : ℕ)
    (sol : Solution) : (Solution × Option Promethee.PyError) :=
  let fp := weightedSumPlus criteria s
  let fm := weightedSumMinus criteria s
  match fp.div (py divisor) with
  | Except.error e => ({ sol with fi_plus := fp, fi_minus := fm }, some e)
  | Except.ok fp1 =>
    match fm.div (py divisor) with
    | Except.error e => ({ sol with fi_plus := fp1, fi_minus := fm }, some e)
    | Except.ok fm1 =>
      ({ sol with fi_plus := fp1, fi_minus := fm1, fi := fp1.sub fm1 }, none)

/-- Flow loop of `Kernel.rank` over tagged scalars. -/
def flowLoop (criteria : List KernelCriterion) (divisor : ℚ) :
    List Solution → ℕ → (List Solution × Option Promethee.PyError)
  | [], _ => ([], none)
  | sol :: rest, s =>
    let r := flowSolution criteria divisor s sol
    match r.2 with
    | some e => (r.1 :: rest, some e)
    | none =>
      let rr := flowLoop criteria divisor rest (s + 1)
      (r.1 :: rr.1, rr.2)

/-- Sort relation of the final ranking over tagged scalars.  With NaN keys
Python's Timsort produces an implementation-defined order (every comparison
is false); the embedding fixes one such order and no theorem below relies
on the order of NaN-keyed solutions, only on the result being a
permutation. -/
def solGEb (a b : Solution) : Prop := (b.fi.le a.fi) = true

instance : DecidableRel solGEb := fun a b => inferInstanceAs (Decidable ((b.fi.le a.fi) = true))

/-- The final sort of `ordered_solutions` over tagged scalars. -/
def sortSolutions (l : List Solution) : List Solution :=
  List.insertionSort solGEb l

/-- The PROMETHEE kernel over tagged scalars. -/
structure Kernel where
  nb_criteria : ℕ
  nb_solutions : ℕ
  criteria : List KernelCriterion
  solutions : List Solution
  ordered_solutions : List Solution
deriving DecidableEq

/-- Constructor `Kernel.__init__` over tagged scalars. -/
def Kernel.new (nb_criteria : ℕ) (nb_solutions : ℕ) : Kernel :=
  { nb_criteria := nb_criteria
    nb_solutions := nb_solutions
    criteria := (List.range nb_criteria).map (fun i => KernelCriterion.new i nb_solutions)
    solutions := (List.range nb_solutions).map Solution.new
    ordered_solutions := [] }

/-- Method `Kernel.set_criterion` over tagged scalars. -/
def Kernel.set_criterion (k : Kernel) (id : ℕ) (criterion : Promethee.Criterion)
    (weight : ℚ) : (Kernel × Option Promethee.PyError) :=
  match k.criteria.get? id with
  | none => (k, some Promethee.PyError.indexError)
  | some kc =>
    ({ k with criteria := k.criteria.set id { kc with criterion := some criterion, weight := weight } },
     none)

/-- Method `Kernel._assign_values` over tagged scalars. -/
def Kernel.assign_values (k : Kernel) (m : Promethee.Mat) : (Kernel × Option Promethee.PyError) :=
  let r := assignAll m k.nb_solutions k.criteria
  ({ k with criteria := r.1 }, r.2)

/-- Method `Kernel.rank` over tagged scalars, the partially mutated kernel
returned next to the exception when one is raised. -/
def Kernel.rank (k : Kernel) (m : Promethee.Mat) : (Kernel × Option Promethee.PyError) :=
  if k.nb_solutions < 2 ∨ k.nb_criteria = 0 then
    ({ k with ordered_solutions := k.solutions }, none)
  else
    let a := k.assign_values m
    match a.2 with
    | some e => (a.1, some e)
    | none =>
      let pr := processCriteria a.1.solutions a.1.criteria
      let k2 := { a.1 with criteria := pr.1 }
      match pr.2.2 with
      | some e => (k2, some e)
      | none =>
        let divisor := pr.2.1 * ((k2.solutions.length : ℚ) - 1)
        let fl := flowLoop k2.criteria divisor k2.solutions 0
        let k3 := { k2 with solutions := fl.1 }
        match fl.2 with
        | some e => (k3, some e)
        | none => ({ k3 with ordered_solutions := sortSolutions k3.solutions }, none)

/-- A scalar that is finite zero or NaN (any numpy tag). -/
def zeroOrNan (x : PyVal) : Prop :=
  (∃ t, x = PyVal.fin 0 t) ∨ (∃ t, x = PyVal.nan t)

/-- Linear Maximize criterion with dyadic parameters `p = 1/4`,
`q = 1/16` (exact in binary floating point). -/
def critCyc (s : String) : Promethee.Criterion :=
  Promethee.LinearCriterion.new s Promethee.CriterionType.LinearMaximize (1/4) (1/16)

/-- Kernel with 3 solutions and 3 criteria, every criterion left at the
default weight `0.0` of `set_criterion`. -/
def kernelCyc : Kernel :=
  (((((Kernel.new 3 3).set_criterion 0 (critCyc "a") 0).1).set_criterion 1
      (critCyc "b") 0).1.set_criterion 2 (critCyc "c") 0).1

/-- Cyclic 3x3 matrix: each solution beats one neighbour inside the linear
zone on some criterion and is beaten inside the linear zone on another, so
numpy scalars propagate into every flow sum (all entries are dyadic and
float-exact; used values per criterion are 0, 7/8 and 1). -/
def matCyc : Promethee.Mat :=
  { rows := 3, cols := 3, entry := fun i j =>
      match i, j with
      | 0, 0 => 8 | 0, 1 => 0 | 0, 2 => 7
      | 1, 0 => 7 | 1, 1 => 8 | 1, 2 => 0
      | 2, 0 => 0 | 2, 1 => 7 | 2, 2 => 8
      | _, _ => 0 }

end PyFloat

namespace Promethee

/-!  ## Theorems: the linear preference policy  -/

/-- Case analysis of `LinearCriterion.compute_pref`: the result is `0`, `1`,
or the linear interpolation, the latter only with `q < d < p`. -/
theorem compute_pref_cases (c : Criterion) (u v : ℚ) :
    c.compute_pref u v = 0 ∨ c.compute_pref u v = 1 ∨
      (c.q < |u - v| ∧ |u - v| < c.p ∧
        c.compute_pref u v = (|u - v| - c.q) / (c.p - c.q)) := by
  by_cases h1 : |u - v| ≤ c.q
  · left
    simp [Criterion.compute_pref, h1]
  · by_cases h2 : |u - v| ≥ c.p
    · cases htype : c.type
      · by_cases h3 : u > v
        · exact Or.inr (Or.inl (by simp [Criterion.compute_pref, h1, h2, h3, htype]))
        · exact Or.inl (by simp [Criterion.compute_pref, h1, h2, h3, htype])
      · by_cases h3 : u < v
        · exact Or.inr (Or.inl (by simp [Criterion.compute_pref, h1, h2, h3, htype]))
        · exact Or.inl (by simp [Criterion.compute_pref, h1, h2, h3, htype])
    · cases htype : c.type
      · by_cases h3 : u > v
        · exact Or.inr (Or.inr ⟨not_le.mp h1, not_le.mp h2,
            by simp [Criterion.compute_pref, h1, h2, h3, htype]⟩)
        · exact Or.inl (by simp [Criterion.compute_pref, h1, h2, h3, htype])
      · by_cases h3 : u < v
        · exact Or.inr (Or.inr ⟨not_le.mp h1, not_le.mp h2,
            by simp [Criterion.compute_pref, h1, h2, h3, htype]⟩)
        · exact Or.inl (by simp [Criterion.compute_pref, h1, h2, h3, htype])

/-- C3: for a `LinearCriterion` with `p > q ≥ 0` and `d = |u - v|`,
`compute_pref u v` is `0` when `d ≤ q`; when `d ≥ p` it is `1` if the
direction-consistent comparison holds and `0` otherwise; when `q < d < p`
it is `(d - q) / (p - q)` if the direction-consistent comparison holds and
`0` otherwise; and in every case the result lies in `[0, 1]`. -/
theorem C3_linear_compute_pref (c : Criterion) (u v : ℚ)
    (_hq0 : 0 ≤ c.q) (hqp : c.q < c.p) :
    (|u - v| ≤ c.q → c.compute_pref u v = 0) ∧
    (|u - v| ≥ c.p →
      (directionConsistent c.type u v → c.compute_pref u v = 1) ∧
      (¬ directionConsistent c.type u v → c.compute_pref u v = 0)) ∧
    (c.q < |u - v| → |u - v| < c.p →
      (directionConsistent c.type u v →
        c.compute_pref u v = (|u - v| - c.q) / (c.p - c.q)) ∧
      (¬ directionConsistent c.type u v → c.compute_pref u v = 0)) ∧
    0 ≤ c.compute_pref u v ∧ c.compute_pref u v ≤ 1 := by
  have hd1 : (|u - v| ≤ c.q → c.compute_pref u v = 0) := by
    intro h1
    simp [Criterion.compute_pref, h1]
  have hd2 : |u - v| ≥ c.p →
      (directionConsistent c.type u v → c.compute_pref u v = 1) ∧
      (¬ directionConsistent c.type u v → c.compute_pref u v = 0) := by
    intro h2
    have h1 : ¬ (|u - v| ≤ c.q) := not_le.mpr (lt_of_lt_of_le hqp h2)
    cases htype : c.type <;>
      exact ⟨fun h3 => by simp [Criterion.compute_pref, directionConsistent, htype, h1, h2,
               h3] at h3 ⊢; simp [h3],
             fun h3 => by
               simp [Criterion.compute_pref, directionConsistent, htype, h1, h2] at h3 ⊢
               simp [h3]⟩
  have hd3 : c.q < |u - v| → |u - v| < c.p →
      (directionConsistent c.type u v →
        c.compute_pref u v = (|u - v| - c.q) / (c.p - c.q)) ∧
      (¬ directionConsistent c.type u v → c.compute_pref u v = 0) := by
    intro hq hp
    have h1 : ¬ (|u - v| ≤ c.q) := not_le.mpr hq
    have h2 : ¬ (|u - v| ≥ c.p) := not_le.mpr hp
    cases htype : c.type <;>
      exact ⟨fun h3 => by simp [Criterion.compute_pref, directionConsistent, htype, h1, h2,
               h3] at h3 ⊢; simp [h3],
             fun h3 => by
               simp [Criterion.compute_pref, directionConsistent, htype, h1, h2] at h3 ⊢
               simp [h3]⟩
  refine ⟨hd1, hd2, hd3, ?_⟩
  rcases compute_pref_cases c u v with h | h | ⟨hql, hpl, h⟩
  · rw [h]
    exact ⟨le_refl 0, by norm_num⟩
  · rw [h]
    exact ⟨by norm_num, le_refl 1⟩
  · rw [h]
    have hpq : (0 : ℚ) < c.p - c.q := sub_pos.mpr hqp
    constructor
    · exact div_nonneg (le_of_lt (sub_pos.mpr hql)) (le_of_lt hpq)
    · rw [div_le_one hpq]
      exact sub_le_sub_right (le_of_lt hpl) c.q

/-- Witness for C3 at the criterion `p = 1/4`, `q = 1/16` (Maximize) and the
pair `u = 1`, `v = 0`. -/
theorem C3_linear_compute_pref_witness :
    (0 : ℚ) ≤ (LinearCriterion.new "w3" CriterionType.LinearMaximize (1/4) (1/16)).q ∧
    (LinearCriterion.new "w3" CriterionType.LinearMaximize (1/4) (1/16)).q <
      (LinearCriterion.new "w3" CriterionType.LinearMaximize (1/4) (1/16)).p ∧
    (0 ≤ (LinearCriterion.new "w3" CriterionType.LinearMaximize (1/4) (1/16)).compute_pref 1 0 ∧
      (LinearCriterion.new "w3" CriterionType.LinearMaximize (1/4) (1/16)).compute_pref 1 0 ≤ 1) :=
  ⟨by norm_num [LinearCriterion.new], by norm_num [LinearCriterion.new],
   (C3_linear_compute_pref (LinearCriterion.new "w3" CriterionType.LinearMaximize (1/4) (1/16))
      1 0 (by norm_num [LinearCriterion.new]) (by norm_num [LinearCriterion.new])).2.2.2⟩

/-- C8 counterexample: constructing a `LinearCriterion` with `p = 1/16 ≤
q = 1/4` is not rejected — the constructor stores the parameters as given,
`apply_config` applies such parameters equally without validation, and a
subsequent `rank` over this criterion completes without any error. -/
theorem C8_counterexample :
    (LinearCriterion.new "x" CriterionType.LinearMaximize (1/16) (1/4)).p = 1/16 ∧
    (LinearCriterion.new "x" CriterionType.LinearMaximize (1/16) (1/4)).q = 1/4 ∧
    (Criterion.apply_config (LinearCriterion.new "x" CriterionType.LinearMaximize (1/2) (1/4))
        { weight := none, p := some (1/16), q := some (1/4) }).p = 1/16 ∧
    ((((Kernel.new 1 2).set_criterion 0
        (LinearCriterion.new "x" CriterionType.LinearMaximize (1/16) (1/4)) 1).1.rank
        { rows := 2, cols := 1, entry := fun i _ => if i = 0 then 0 else 1 }).2 = none) := by
  refine ⟨by norm_num [LinearCriterion.new], by norm_num [LinearCriterion.new],
    by norm_num [LinearCriterion.new, Criterion.apply_config], ?_⟩
  norm_num [Kernel.rank, Kernel.new, Kernel.set_criterion, Kernel.assign_values, assignAll,
    assignCriterion, assignLoop, setCellValue, processCriteria, KernelCriterion.normalize,
    KernelCriterion.compute_fis, KernelCriterion.new, CriterionSolutionValue.new, foldMax, foldMin,
    Criterion.compute_pref, LinearCriterion.new, Solution.new, Mat.get, flowLoop,
    flowSolution, weightedSumPlus, weightedSumMinus, solutionCell, sortSolutions,
    List.insertionSort, List.orderedInsert, solGE,
    List.replicate, List.set, List.foldl, List.zip, List.zipWith, List.drop, List.map,
    List.range, List.range_succ, List.get?, List.getD, abs_of_nonneg, abs_of_nonpos]

/-- C8 amended: a `LinearCriterion` with `p ≤ q` is accepted without
validation at construction and configuration time, but `compute_pref` then
never reaches the interpolation branch (which would divide by `p - q`):
for every pair of values the result is exactly `0` or `1`. -/
theorem C8_ple_q_no_division (c : Criterion) (u v : ℚ) (hpq : c.p ≤ c.q) :
    c.compute_pref u v = 0 ∨ c.compute_pref u v = 1 := by
  rcases compute_pref_cases c u v with h | h | ⟨hql, hpl, _⟩
  · exact Or.inl h
  · exact Or.inr h
  · exact absurd hpq (not_le.mpr (lt_trans hql hpl))

/-- Witness for the amended C8 at a criterion with `p = 1/16 ≤ q = 1/4`. -/
theorem C8_ple_q_no_division_witness :
    (LinearCriterion.new "x8" CriterionType.LinearMaximize (1/16) (1/4)).p ≤
      (LinearCriterion.new "x8" CriterionType.LinearMaximize (1/16) (1/4)).q ∧
    ((LinearCriterion.new "x8" CriterionType.LinearMaximize (1/16) (1/4)).compute_pref (1/8) 0 = 0 ∨
     (LinearCriterion.new "x8" CriterionType.LinearMaximize (1/16) (1/4)).compute_pref (1/8) 0 = 1) :=
  ⟨by norm_num [LinearCriterion.new],
   C8_ple_q_no_division (LinearCriterion.new "x8" CriterionType.LinearMaximize (1/16) (1/4))
     (1/8) 0 (by norm_num [LinearCriterion.new])⟩

/-!  ## Theorems: compute_fis and the fi_minus reset typo (C1, C2)  -/

/-- C2 failing evaluation: running `compute_fis` on a criterion whose first
cell starts with `fi_minus = 5` yields `fi_minus = 6` for that cell, not
the pairwise sum `Σ pref(used_j, used_0) = pref(1, 0) = 1` the claim
requires: the reset line `val1.fi_plus = val1.fit_minus = 0.0` leaves
`fi_minus` unreset (`fit_minus` is a typo), so the prior value is
accumulated into.  The cell's `fi` is likewise `0 - 6 = -6` instead of
`-1`. -/
theorem C2_compute_fis_keeps_prior_fi_minus :
    ((kcPrior.compute_fis [Solution.new 0, Solution.new 1]).toOption.map
      (fun kc' => kc'.values.map CriterionSolutionValue.fi_minus)) = some [6, 0] ∧
    ((kcPrior.compute_fis [Solution.new 0, Solution.new 1]).toOption.map
      (fun kc' => kc'.values.map CriterionSolutionValue.fi)) = some [-6, 1] ∧
    critMax.compute_pref 1 0 = 1 ∧ critMax.compute_pref 0 1 = 0 := by
  norm_num [KernelCriterion.compute_fis, Criterion.compute_pref, kcPrior, critMax,
    LinearCriterion.new, Solution.new, Except.toOption,
    List.zip, List.zipWith, List.map, List.foldl, List.drop, abs_of_nonneg, abs_of_nonpos]

/-- C1 failing evaluation: on a kernel with assigned criterion and total
weight 1 > 0, two successive `rank` calls with the identical matrix and
configuration give different flow values: solution 0 has `fi = -1` after
the first call but `fi = -2` after the second (cell `fi_minus` of
criterion 0 doubles from 1 to 2), because `compute_fis` fails to reset
`fi_minus` between calls.  Both calls return without error. -/
theorem C1_rank_twice_differs :
    0 < kernelTwoSol.totalWeight ∧
    (kernelTwoSol.rank matTwoSol).2 = none ∧
    ((kernelTwoSol.rank matTwoSol).1.rank matTwoSol).2 = none ∧
    ((kernelTwoSol.rank matTwoSol).1.solutions.map Solution.fi = [-1, 1]) ∧
    (((kernelTwoSol.rank matTwoSol).1.rank matTwoSol).1.solutions.map Solution.fi = [-2, 1]) ∧
    ((kernelTwoSol.rank matTwoSol).1.criteria.map
        (fun kc => kc.values.map CriterionSolutionValue.fi_minus) = [[1, 0]]) ∧
    (((kernelTwoSol.rank matTwoSol).1.rank matTwoSol).1.criteria.map
        (fun kc => kc.values.map CriterionSolutionValue.fi_minus) = [[2, 0]]) := by
  norm_num [Kernel.rank, Kernel.new, Kernel.set_criterion, Kernel.assign_values, assignAll,
    assignCriterion, assignLoop, setCellValue, processCriteria, KernelCriterion.normalize,
    KernelCriterion.compute_fis, KernelCriterion.new, CriterionSolutionValue.new, foldMax, foldMin,
    Criterion.compute_pref, LinearCriterion.new, Solution.new, Mat.get, flowLoop,
    flowSolution, weightedSumPlus, weightedSumMinus, solutionCell, sortSolutions,
    List.insertionSort, List.orderedInsert, solGE, Kernel.totalWeight,
    kernelTwoSol, matTwoSol,
    List.replicate, List.set, List.foldl, List.zip, List.zipWith, List.drop, List.map,
    List.range, List.range_succ, List.get?, List.getD, abs_of_nonneg, abs_of_nonpos]

/-!  ## Theorems: normalization (C4)  -/

/-- The running maximum computed by the `normalize` loop is an upper bound
of its start and of all traversed cell values, and is one of them. -/
theorem foldMax_spec (l : List CriterionSolutionValue) (a : ℚ) :
    (a ≤ foldMax a l ∧ ∀ v ∈ l, v.value ≤ foldMax a l) ∧
      (foldMax a l = a ∨ foldMax a l ∈ l.map CriterionSolutionValue.value) := by
  induction l generalizing a with
  | nil => simp [foldMax]
  | cons x xs ih =>
    have hstep : foldMax a (x :: xs) = foldMax (if a < x.value then x.value else a) xs := by
      simp [foldMax, List.foldl]
    rcases ih (if a < x.value then x.value else a) with ⟨⟨hb, hall⟩, hmem⟩
    have hab : a ≤ (if a < x.value then x.value else a) := by
      split_ifs with h
      · exact le_of_lt h
      · exact le_refl a
    have hxb : x.value ≤ (if a < x.value then x.value else a) := by
      split_ifs with h
      · exact le_refl _
      · exact not_lt.mp h
    refine ⟨⟨hstep ▸ le_trans hab hb, ?_⟩, ?_⟩
    · intro v hv
      rcases List.mem_cons.mp hv with rfl | hv
      · exact hstep ▸ le_trans hxb hb
      · exact hstep ▸ hall v hv
    · rw [hstep]
      rcases hmem with heq | hmem
      · rw [heq]
        split_ifs with h
        · exact Or.inr (by simp)
        · exact Or.inl rfl
      · exact Or.inr (by simp only [List.map_cons, List.mem_cons]; exact Or.inr hmem)

/-- The running minimum computed by the `normalize` loop is a lower bound
of its start and of all traversed cell values, and is one of them. -/
theorem foldMin_spec (l : List CriterionSolutionValue) (a : ℚ) :
    (foldMin a l ≤ a ∧ ∀ v ∈ l, foldMin a l ≤ v.value) ∧
      (foldMin a l = a ∨ foldMin a l ∈ l.map CriterionSolutionValue.value) := by
  induction l generalizing a with
  | nil => simp [foldMin]
  | cons x xs ih =>
    have hstep : foldMin a (x :: xs) = foldMin (if a > x.value then x.value else a) xs := by
      simp [foldMin, List.foldl]
    rcases ih (if a > x.value then x.value else a) with ⟨⟨hb, hall⟩, hmem⟩
    have hab : (if a > x.value then x.value else a) ≤ a := by
      split_ifs with h
      · exact le_of_lt h
      · exact le_refl a
    have hxb : (if a > x.value then x.value else a) ≤ x.value := by
      split_ifs with h
      · exact le_refl _
      · exact not_lt.mp h
    refine ⟨⟨hstep ▸ le_trans hb hab, ?_⟩, ?_⟩
    · intro v hv
      rcases List.mem_cons.mp hv with rfl | hv
      · exact hstep ▸ le_trans hb hxb
      · exact hstep ▸ hall v hv
    · rw [hstep]
      rcases hmem with heq | hmem
      · rw [heq]
        split_ifs with h
        · exact Or.inr (by simp)
        · exact Or.inl rfl
      · exact Or.inr (by simp only [List.map_cons, List.mem_cons]; exact Or.inr hmem)

/-- Evaluation of `normalize` when the policy does not require
normalization: every `used_value` becomes the raw `value`. -/
theorem normalize_eq_not_normalized (kc : KernelCriterion) (c : Criterion)
    (hc : kc.criterion = some c) (hn : c.normalized = false) :
    kc.normalize = Except.ok
      { kc with values := kc.values.map (fun v => { v with used_value := v.value }) } := by
  unfold KernelCriterion.normalize
  rw [hc]
  simp [hn]

/-- Evaluation of `normalize` when the policy requires normalization and
the cell list is nonempty: min-max scaling, or the constant `1` when all
raw values coincide. -/
theorem normalize_eq_normalized (kc : KernelCriterion) (c : Criterion)
    (v0 : CriterionSolutionValue) (rest : List CriterionSolutionValue)
    (hc : kc.criterion = some c) (hn : c.normalized = true)
    (hvals : kc.values = v0 :: rest) :
    kc.normalize =
      (if foldMax v0.value rest - foldMin v0.value rest ≠ 0 then
        Except.ok { kc with values := kc.values.map (fun v =>
          { v with used_value :=
              (v.value - foldMin v0.value rest) /
                (foldMax v0.value rest - foldMin v0.value rest) }) }
      else
        Except.ok { kc with values := kc.values.map (fun v => { v with used_value := 1 }) }) := by
  unfold KernelCriterion.normalize
  rw [hc]
  simp only [hn, if_true]
  rw [hvals]

/-- C4: after `normalize` on a criterion with an assigned policy and at
least one cell, either the policy does not require normalization and every
`used_value` is the raw `value` unchanged, or it does and, with `min` and
`max` ranging over all cells of the criterion, every `used_value` is
`(value - min) / (max - min)` — except that when `max = min` every
`used_value` is set to `1` — and in the non-degenerate case every
`used_value` lies in `[0, 1]`. -/
theorem C4_normalize_spec (kc : KernelCriterion) (c : Criterion)
    (hc : kc.criterion = some c) (hne : kc.values ≠ []) :
    ∃ kc', kc.normalize = Except.ok kc' ∧
      (c.normalized = false →
        kc'.values = kc.values.map (fun v => { v with used_value := v.value })) ∧
      (c.normalized = true →
        ∃ mn mx, (∀ v ∈ kc.values, mn ≤ v.value ∧ v.value ≤ mx) ∧
          mn ∈ kc.values.map CriterionSolutionValue.value ∧
          mx ∈ kc.values.map CriterionSolutionValue.value ∧
          (mx = mn → kc'.values = kc.values.map (fun v => { v with used_value := 1 })) ∧
          (mx ≠ mn →
            kc'.values = kc.values.map
              (fun v => { v with used_value := (v.value - mn) / (mx - mn) }) ∧
            ∀ v ∈ kc'.values, 0 ≤ v.used_value ∧ v.used_value ≤ 1)) := by
  obtain ⟨v0, rest, hvals⟩ := List.exists_cons_of_ne_nil hne
  by_cases hnorm : c.normalized
  · rcases foldMax_spec rest v0.value with ⟨⟨hmax0, hmaxall⟩, hmaxmem⟩
    rcases foldMin_spec rest v0.value with ⟨⟨hmin0, hminall⟩, hminmem⟩
    set mx := foldMax v0.value rest with hmx
    set mn := foldMin v0.value rest with hmn
    have hbounds : ∀ v ∈ kc.values, mn ≤ v.value ∧ v.value ≤ mx := by
      intro v hv
      rw [hvals] at hv
      rcases List.mem_cons.mp hv with rfl | hv
      · exact ⟨hmin0, hmax0⟩
      · exact ⟨hminall v hv, hmaxall v hv⟩
    have hmnmem : mn ∈ kc.values.map CriterionSolutionValue.value := by
      rw [hvals]
      rcases hminmem with heq | hm
      · simp [heq]
      · simp only [List.map_cons, List.mem_cons]
        exact Or.inr hm
    have hmxmem : mx ∈ kc.values.map CriterionSolutionValue.value := by
      rw [hvals]
      rcases hmaxmem with heq | hm
      · simp [heq]
      · simp only [List.map_cons, List.mem_cons]
        exact Or.inr hm
    have hmnmx : mn ≤ mx := le_trans hmin0 hmax0
    have heqn := normalize_eq_normalized kc c v0 rest hc hnorm hvals
    by_cases hdiff : mx - mn = 0
    · have hmxeq : mx = mn := by linarith
      rw [if_neg (by rw [← hmx, ← hmn]; exact fun h => h hdiff)] at heqn
      refine ⟨_, heqn, ?_, ?_⟩
      · intro hfalse
        rw [hnorm] at hfalse
        exact absurd hfalse (by simp)
      · intro _
        exact ⟨mn, mx, hbounds, hmnmem, hmxmem, fun _ => rfl,
          fun hne2 => absurd hmxeq hne2⟩
    · rw [if_pos (by rw [← hmx, ← hmn]; exact hdiff)] at heqn
      refine ⟨_, heqn, ?_, ?_⟩
      · intro hfalse
        rw [hnorm] at hfalse
        exact absurd hfalse (by simp)
      · intro _
        refine ⟨mn, mx, hbounds, hmnmem, hmxmem, fun heq => absurd heq
          (fun h => hdiff (by rw [h]; ring)), fun _ => ⟨rfl, ?_⟩⟩
        intro v hv
        simp only [List.mem_map] at hv
        rcases hv with ⟨w, hw, rfl⟩
        rcases hbounds w hw with ⟨h1, h2⟩
        have hlt : mn < mx := lt_of_le_of_ne hmnmx (fun h => hdiff (by rw [h]; ring))
        have hpos : 0 < mx - mn := by linarith
        constructor
        · exact div_nonneg (by linarith) (le_of_lt hpos)
        · rw [div_le_one hpos]
          linarith
  · have hn : c.normalized = false := by
      simpa using hnorm
    refine ⟨_, normalize_eq_not_normalized kc c hc hn, fun _ => rfl, ?_⟩
    intro htrue
    rw [hn] at htrue
    exact absurd htrue (by simp)

/-!  ## Stage lemmas for `rank` (shared by C5, C6, C9, C10)  -/

/-- A successful `normalize` only rewrites the cell list, by a pointwise
map; all scalar fields of the criterion are untouched. -/
theorem normalize_ok_shape {kc kc' : KernelCriterion}
    (h : kc.normalize = Except.ok kc') :
    ∃ f, kc' = { kc with values := kc.values.map f } := by
  unfold KernelCriterion.normalize at h
  rcases hcrit : kc.criterion with _ | c
  · rw [hcrit] at h
    exact absurd h (by simp)
  rw [hcrit] at h
  by_cases hn : c.normalized
  · simp only [hn, if_true] at h
    rcases hvals : kc.values with _ | ⟨v0, rest⟩
    · rw [hvals] at h
      exact absurd h (by simp)
    · rw [hvals] at h
      simp only at h
      split_ifs at h with hdiff
      · exact ⟨_, ((Except.ok.injEq _ _).mp h).symm⟩
      · exact ⟨_, ((Except.ok.injEq _ _).mp h).symm⟩
  · simp only [hn] at h
    simp only [Bool.false_eq_true, if_false] at h
    exact ⟨_, ((Except.ok.injEq _ _).mp h).symm⟩

/-- A successful `compute_fis` only rewrites the cell list, preserving its
length; all scalar fields of the criterion are untouched. -/
theorem compute_fis_ok_shape {kc kc' : KernelCriterion} {sols : List Solution}
    (h : kc.compute_fis sols = Except.ok kc') :
    ∃ vals, kc' = { kc with values := vals } ∧ vals.length = kc.values.length := by
  unfold KernelCriterion.compute_fis at h
  rcases hcrit : kc.criterion with _ | c
  · rw [hcrit] at h
    exact absurd h (by simp)
  rw [hcrit] at h
  simp only at h
  refine ⟨_, (by rw [← (Except.ok.injEq _ _).mp h]), ?_⟩
  simp only [List.length_map, List.length_append, List.length_map, List.length_drop,
    List.length_zip]
  omega

/-- The criteria loop of `rank` rewrites each criterion's cells but keeps
the identifier, the weight and the cell count of every criterion, also when
it stops at an exception. -/
theorem processCriteria_shape (sols : List Solution) : ∀ cs : List KernelCriterion,
    (processCriteria sols cs).1.map KernelCriterion.weight = cs.map KernelCriterion.weight ∧
    (processCriteria sols cs).1.map KernelCriterion.id = cs.map KernelCriterion.id ∧
    (processCriteria sols cs).1.map (fun kc => kc.values.length) =
      cs.map (fun kc => kc.values.length) := by
  intro cs
  induction cs with
  | nil => simp [processCriteria]
  | cons kc rest ih =>
    simp only [processCriteria]
    rcases hn : kc.normalize with e | kc1
    · simp
    rcases normalize_ok_shape hn with ⟨f, rfl⟩
    rcases hf : KernelCriterion.compute_fis { kc with values := kc.values.map f } sols with e | kc2
    · simp only [hf]
      simp
    rcases compute_fis_ok_shape hf with ⟨vals, rfl, hlen⟩
    simp only [hf]
    rcases ih with ⟨ihw, ihi, ihl⟩
    rcases hrr : processCriteria sols rest with ⟨rest', w, e'⟩
    rw [hrr] at ihw ihi ihl
    simp only [List.length_map] at hlen
    rcases e' with _ | e'
    · simp only [List.map_cons] at ihw ihi ihl ⊢
      exact ⟨by rw [ihw], by rw [ihi], by simp [hlen, ihl]⟩
    · simp only [List.map_cons] at ihw ihi ihl ⊢
      exact ⟨by rw [ihw], by rw [ihi], by simp [hlen, ihl]⟩

/-- On success the criteria loop of `rank` accumulates exactly the sum of
the criteria weights. -/
theorem processCriteria_weight_sum (sols : List Solution) : ∀ (cs cs' : List KernelCriterion)
    (w : ℚ), processCriteria sols cs = (cs', w, none) →
    w = (cs.map KernelCriterion.weight).sum := by
  intro cs
  induction cs with
  | nil =>
    intro cs' w h
    simp only [processCriteria, Prod.mk.injEq] at h
    rcases h with ⟨_, hw, _⟩
    simp [← hw]
  | cons kc rest ih =>
    intro cs' w h
    simp only [processCriteria] at h
    split at h
    · simp at h
    next kc1 hn =>
      split at h
      · simp at h
      next kc2 hf =>
        split at h
        · simp at h
        next hnone =>
          simp only [Prod.mk.injEq] at h
          rcases h with ⟨_, hw, _⟩
          rcases normalize_ok_shape hn with ⟨f, rfl⟩
          rcases compute_fis_ok_shape hf with ⟨vals, rfl, _⟩
          rcases hrr : processCriteria sols rest with ⟨rest', w', e2⟩
          rw [hrr] at hnone hw
          simp only [] at hnone hw
          rw [← hw, ih rest' w' (by rw [hrr, hnone]), List.map_cons, List.sum_cons]

/-- A `setCellValue` success keeps the cell count. -/
theorem setCellValue_length {vals : List CriterionSolutionValue} {i : ℕ} {x : ℚ}
    {vals' : List CriterionSolutionValue} (h : setCellValue vals i x = some vals') :
    vals'.length = vals.length := by
  unfold setCellValue at h
  split at h
  · simp at h
  · simp only [Option.some.injEq] at h
    rw [← h]
    simp

/-- The inner assignment loop keeps the cell count, whether it finishes or
stops at an exception. -/
theorem assignLoop_length (m : Mat) (cid : ℕ) : ∀ (cnt s : ℕ)
    (vals : List CriterionSolutionValue),
    (assignLoop m cid vals s cnt).1.length = vals.length := by
  intro cnt
  induction cnt with
  | zero => intro s vals; rfl
  | succ n ih =>
    intro s vals
    simp only [assignLoop]
    split
    · rfl
    next x hget =>
      split
      · rfl
      next vals1 hset =>
        rw [ih (s + 1) vals1, setCellValue_length hset]

/-- The outer assignment loop keeps every criterion's identifier, policy,
weight and cell count, whether it finishes or stops at an exception. -/
theorem assignAll_shape (m : Mat) (n : ℕ) : ∀ cs : List KernelCriterion,
    (assignAll m n cs).1.map KernelCriterion.weight = cs.map KernelCriterion.weight ∧
    (assignAll m n cs).1.map KernelCriterion.id = cs.map KernelCriterion.id ∧
    (assignAll m n cs).1.map KernelCriterion.criterion = cs.map KernelCriterion.criterion ∧
    (assignAll m n cs).1.map (fun kc => kc.values.length) =
      cs.map (fun kc => kc.values.length) := by
  intro cs
  induction cs with
  | nil => simp [assignAll]
  | cons kc rest ih =>
    simp only [assignAll, assignCriterion]
    rcases ih with ⟨ihw, ihi, ihc, ihl⟩
    split
    · simp [assignLoop_length]
    · simp only [List.map_cons]
      exact ⟨by rw [ihw], by rw [ihi], by rw [ihc], by rw [assignLoop_length, ihl]⟩

/-- Any exception of the inner assignment loop is an `IndexError`. -/
theorem assignLoop_error (m : Mat) (cid : ℕ) : ∀ (cnt s : ℕ)
    (vals : List CriterionSolutionValue),
    (assignLoop m cid vals s cnt).2 = none ∨
      (assignLoop m cid vals s cnt).2 = some PyError.indexError := by
  intro cnt
  induction cnt with
  | zero => intro s vals; exact Or.inl rfl
  | succ n ih =>
    intro s vals
    rcases hget : m.get s cid with e | x
    · have he : e = PyError.indexError := by
        unfold Mat.get at hget
        split at hget
        · simp at hget
        · simp only [Except.error.injEq] at hget
          exact hget.symm
      simp [assignLoop, hget, he]
    · simp only [assignLoop, hget]
      split
      · exact Or.inr rfl
      · exact ih (s + 1) _

/-- Any exception of the outer assignment loop is an `IndexError`. -/
theorem assignAll_error (m : Mat) (n : ℕ) : ∀ cs : List KernelCriterion,
    (assignAll m n cs).2 = none ∨ (assignAll m n cs).2 = some PyError.indexError := by
  intro cs
  induction cs with
  | nil => exact Or.inl rfl
  | cons kc rest ih =>
    simp only [assignAll, assignCriterion]
    split
    next e heq =>
      rcases assignLoop_error m kc.id n 0 kc.values with h | h
      · rw [heq] at h
        simp at h
      · rw [heq] at h
        simp only [Option.some.injEq] at h
        simp [h]
    · exact ih

/-- A finished run of the inner assignment loop implies that its last
matrix access was in bounds. -/
theorem assignLoop_ok_bounds (m : Mat) (cid : ℕ) : ∀ (cnt s : ℕ)
    (vals : List CriterionSolutionValue),
    (assignLoop m cid vals s cnt).2 = none → 0 < cnt →
    s + cnt - 1 < m.rows ∧ cid < m.cols := by
  intro cnt
  induction cnt with
  | zero => intro s vals _ h0; exact absurd h0 (by simp)
  | succ n ih =>
    intro s vals h _
    rcases hget : m.get s cid with e | x
    · simp only [assignLoop, hget] at h
      simp at h
    · simp only [assignLoop, hget] at h
      have hbound : s < m.rows ∧ cid < m.cols := by
        unfold Mat.get at hget
        split at hget
        · assumption
        · simp at hget
      rcases n.eq_zero_or_pos with rfl | hpos
      · simpa using hbound
      split at h
      · simp at h
      next vals1 hset =>
        have := ih (s + 1) vals1 h hpos
        omega

/-- A finished `_assign_values` implies that every criterion's last matrix
access was in bounds: the matrix has at least `nb_solutions` rows and more
columns than any criterion identifier. -/
theorem assignAll_ok_bounds (m : Mat) (n : ℕ) : ∀ cs : List KernelCriterion,
    (assignAll m n cs).2 = none → 0 < n →
    ∀ kc ∈ cs, n - 1 < m.rows ∧ kc.id < m.cols := by
  intro cs
  induction cs with
  | nil => intro _ _ kc hkc; cases hkc
  | cons kc0 rest ih =>
    intro h hn kc hkc
    simp only [assignAll, assignCriterion] at h
    split at h
    · simp at h
    next heq =>
      rcases List.mem_cons.mp hkc with rfl | hkc
      · have := assignLoop_ok_bounds m kc.id n 0 kc.values (by rw [heq]) hn
        simpa using this
      · exact ih h hn kc hkc

/-- Evaluation of the per-solution flow computation when the divisor is not
zero: both divisions succeed and the solution receives the rescaled sums. -/
theorem flowSolution_ne_zero (cs : List KernelCriterion) (d : ℚ) (s : ℕ) (sol : Solution)
    (hd : d ≠ 0) :
    (flowSolution cs d s sol).2 = none ∧
    (flowSolution cs d s sol).1.id = sol.id ∧
    (flowSolution cs d s sol).1.fi_plus = weightedSumPlus cs s / d ∧
    (flowSolution cs d s sol).1.fi_minus = weightedSumMinus cs s / d ∧
    (flowSolution cs d s sol).1.fi =
      weightedSumPlus cs s / d - weightedSumMinus cs s / d := by
  unfold flowSolution
  simp [hd]

/-- The per-solution flow computation keeps the identifier. -/
theorem flowSolution_id (cs : List KernelCriterion) (d : ℚ) (s : ℕ) (sol : Solution) :
    (flowSolution cs d s sol).1.id = sol.id := by
  unfold flowSolution
  split <;> rfl

/-- The flow loop keeps the number of solutions. -/
theorem flowLoop_length (cs : List KernelCriterion) (d : ℚ) : ∀ (sols : List Solution) (s0 : ℕ),
    (flowLoop cs d sols s0).1.length = sols.length := by
  intro sols
  induction sols with
  | nil => intro s0; rfl
  | cons sol rest ih =>
    intro s0
    simp only [flowLoop]
    split
    · simp
    · simp [ih (s0 + 1)]

/-- The flow loop keeps each solution's identifier, in order. -/
theorem flowLoop_ids (cs : List KernelCriterion) (d : ℚ) : ∀ (sols : List Solution) (s0 : ℕ),
    (flowLoop cs d sols s0).1.map Solution.id = sols.map Solution.id := by
  intro sols
  induction sols with
  | nil => intro s0; rfl
  | cons sol rest ih =>
    intro s0
    simp only [flowLoop]
    split
    · simp only [List.map_cons, flowSolution_id]
    · simp only [List.map_cons, flowSolution_id, ih (s0 + 1)]

/-- Unfolding of the flow loop at a cons cell when the divisor is not
zero. -/
theorem flowLoop_cons_ne_zero (cs : List KernelCriterion) (d : ℚ) (hd : d ≠ 0)
    (sol : Solution) (rest : List Solution) (s0 : ℕ) :
    (flowLoop cs d (sol :: rest) s0).1 =
      (flowSolution cs d s0 sol).1 :: (flowLoop cs d rest (s0 + 1)).1 ∧
    (flowLoop cs d (sol :: rest) s0).2 = (flowLoop cs d rest (s0 + 1)).2 := by
  have h2 := (flowSolution_ne_zero cs d s0 sol hd).1
  simp only [flowLoop]
  split
  next e heq =>
    rw [heq] at h2
    simp at h2
  · exact ⟨rfl, rfl⟩

/-- The flow loop never stops early when the divisor is not zero. -/
theorem flowLoop_ok_ne_zero (cs : List KernelCriterion) (d : ℚ) (hd : d ≠ 0) :
    ∀ (sols : List Solution) (s0 : ℕ), (flowLoop cs d sols s0).2 = none := by
  intro sols
  induction sols with
  | nil => intro s0; rfl
  | cons sol rest ih =>
    intro s0
    rw [(flowLoop_cons_ne_zero cs d hd sol rest s0).2]
    exact ih (s0 + 1)

/-- Element formula of the flow loop when the divisor is not zero: the
solution at position `i` is the flow computation of the input solution at
position `i` with the running index `s0 + i`. -/
theorem flowLoop_get_ne_zero (cs : List KernelCriterion) (d : ℚ) (hd : d ≠ 0) :
    ∀ (sols : List Solution) (s0 i : ℕ) (hi : i < (flowLoop cs d sols s0).1.length)
      (hi' : i < sols.length),
    (flowLoop cs d sols s0).1.get ⟨i, hi⟩ =
      (flowSolution cs d (s0 + i) (sols.get ⟨i, hi'⟩)).1 := by
  intro sols
  induction sols with
  | nil =>
    intro s0 i hi hi'
    exact absurd hi' (by simp)
  | cons sol rest ih =>
    intro s0 i hi hi'
    have hstep := (flowLoop_cons_ne_zero cs d hd sol rest s0).1
    cases i with
    | zero =>
      simp only [List.get_eq_getElem] at hstep ⊢
      simp [hstep]
    | succ j =>
      have hj : j < (flowLoop cs d rest (s0 + 1)).1.length := by
        rw [flowLoop_length]
        simpa using hi'
      have hj' : j < rest.length := by simpa using hi'
      have hrec := ih (s0 + 1) j hj hj'
      simp only [List.get_eq_getElem] at hstep hrec ⊢
      simp only [hstep, List.getElem_cons_succ, List.get_eq_getElem]
      rw [hrec]
      have harith : s0 + 1 + j = s0 + (j + 1) := by omega
      rw [harith]

/-- Projections of `_assign_values`. -/
theorem assign_values_fields (k : Kernel) (m : Mat) :
    (k.assign_values m).1.nb_criteria = k.nb_criteria ∧
    (k.assign_values m).1.nb_solutions = k.nb_solutions ∧
    (k.assign_values m).1.solutions = k.solutions ∧
    (k.assign_values m).1.ordered_solutions = k.ordered_solutions ∧
    (k.assign_values m).1.criteria = (assignAll m k.nb_solutions k.criteria).1 ∧
    (k.assign_values m).2 = (assignAll m k.nb_solutions k.criteria).2 :=
  ⟨rfl, rfl, rfl, rfl, rfl, rfl⟩

/-- Guard behavior of `rank`: with fewer than 2 solutions or no criteria,
the call only copies `solutions` into `ordered_solutions`. -/
theorem rank_guard (k : Kernel) (m : Mat)
    (hg : k.nb_solutions < 2 ∨ k.nb_criteria = 0) :
    k.rank m = ({ k with ordered_solutions := k.solutions }, none) := by
  unfold Kernel.rank
  rw [if_pos hg]

/-- Decomposition of a successful non-guarded `rank` call into its stages. -/
theorem rank_ok_decomp (k : Kernel) (m : Mat)
    (hng : ¬ (k.nb_solutions < 2 ∨ k.nb_criteria = 0)) (hok : (k.rank m).2 = none) :
    ∃ k1 cs w,
      k.assign_values m = (k1, none) ∧
      processCriteria k1.solutions k1.criteria = (cs, w, none) ∧
      (flowLoop cs (w * ((k1.solutions.length : ℚ) - 1)) k1.solutions 0).2 = none ∧
      (k.rank m).1.nb_criteria = k.nb_criteria ∧
      (k.rank m).1.nb_solutions = k.nb_solutions ∧
      (k.rank m).1.criteria = cs ∧
      (k.rank m).1.solutions =
        (flowLoop cs (w * ((k1.solutions.length : ℚ) - 1)) k1.solutions 0).1 ∧
      (k.rank m).1.ordered_solutions = sortSolutions (k.rank m).1.solutions ∧
      k1.solutions = k.solutions ∧ k1.nb_criteria = k.nb_criteria ∧
      k1.nb_solutions = k.nb_solutions := by
  unfold Kernel.rank
  rw [if_neg hng]
  rcases hA : k.assign_values m with ⟨k1, e1⟩
  have hAf := assign_values_fields k m
  rw [hA] at hAf
  simp only [] at hAf
  rcases e1 with _ | e1
  · simp only []
    rcases hP : processCriteria k1.solutions k1.criteria with ⟨cs, w, e2⟩
    rcases e2 with _ | e2
    · simp only []
      rcases hF : flowLoop cs (w * ((k1.solutions.length : ℚ) - 1)) k1.solutions 0 with ⟨sols', e3⟩
      rcases e3 with _ | e3
      · simp only []
        exact ⟨k1, cs, w, rfl, hP, by rw [hF], hAf.1, hAf.2.1, rfl, by rw [hF], trivial,
          hAf.2.2.1, hAf.1, hAf.2.1⟩
      · rw [Kernel.rank] at hok
        rw [if_neg hng] at hok
        rw [hA] at hok
        simp only [] at hok
        rw [hP] at hok
        simp only [] at hok
        rw [hF] at hok
        simp at hok
    · rw [Kernel.rank] at hok
      rw [if_neg hng] at hok
      rw [hA] at hok
      simp only [] at hok
      rw [hP] at hok
      simp at hok
  · rw [Kernel.rank] at hok
    rw [if_neg hng] at hok
    rw [hA] at hok
    simp at hok

/-- Any `rank` call (guarded, aborted or successful) keeps the two counts,
the solution identifiers in order, the criterion identifiers in order and
each criterion's cell count. -/
theorem rank_shape (k : Kernel) (m : Mat) :
    (k.rank m).1.nb_criteria = k.nb_criteria ∧
    (k.rank m).1.nb_solutions = k.nb_solutions ∧
    (k.rank m).1.solutions.map Solution.id = k.solutions.map Solution.id ∧
    (k.rank m).1.criteria.map KernelCriterion.id = k.criteria.map KernelCriterion.id ∧
    (k.rank m).1.criteria.map (fun kc => kc.values.length) =
      k.criteria.map (fun kc => kc.values.length) := by
  unfold Kernel.rank
  split
  · exact ⟨rfl, rfl, rfl, rfl, rfl⟩
  rcases hA : k.assign_values m with ⟨k1, e1⟩
  have hAf := assign_values_fields k m
  rw [hA] at hAf
  simp only [] at hAf
  rcases assignAll_shape m k.nb_solutions k.criteria with ⟨_, hAi, _, hAl⟩
  have hk1i : k1.criteria.map KernelCriterion.id = k.criteria.map KernelCriterion.id := by
    rw [hAf.2.2.2.2.1, hAi]
  have hk1l : k1.criteria.map (fun kc => kc.values.length) =
      k.criteria.map (fun kc => kc.values.length) := by
    rw [hAf.2.2.2.2.1, hAl]
  have hk1s : k1.solutions.map Solution.id = k.solutions.map Solution.id := by
    rw [hAf.2.2.1]
  rcases e1 with _ | e1
  · simp only []
    have hPs := processCriteria_shape k1.solutions k1.criteria
    rcases hP : processCriteria k1.solutions k1.criteria with ⟨cs, w, e2⟩
    rw [hP] at hPs
    simp only [] at hPs
    rcases e2 with _ | e2
    · simp only []
      rcases hF : flowLoop cs (w * ((k1.solutions.length : ℚ) - 1)) k1.solutions 0
        with ⟨sols', e3⟩
      have hFi := flowLoop_ids cs (w * ((k1.solutions.length : ℚ) - 1)) k1.solutions 0
      rw [hF] at hFi
      simp only [] at hFi
      rcases e3 with _ | e3
      · exact ⟨hAf.1, hAf.2.1, by rw [hFi, hk1s], by rw [hPs.2.1, hk1i],
          by rw [hPs.2.2, hk1l]⟩
      · exact ⟨hAf.1, hAf.2.1, by rw [hFi, hk1s], by rw [hPs.2.1, hk1i],
          by rw [hPs.2.2, hk1l]⟩
    · exact ⟨hAf.1, hAf.2.1, hk1s, by rw [hPs.2.1, hk1i], by rw [hPs.2.2, hk1l]⟩
  · exact ⟨hAf.1, hAf.2.1, hk1s, hk1i, hk1l⟩

/-- An aborted `rank` call leaves `ordered_solutions` exactly as it was. -/
theorem rank_error_ordered (k : Kernel) (m : Mat)
    (h : (k.rank m).2 ≠ none) :
    (k.rank m).1.ordered_solutions = k.ordered_solutions := by
  unfold Kernel.rank at h ⊢
  split at h
  · exact absurd rfl h
  next hng =>
    rw [if_neg hng]
    rcases hA : k.assign_values m with ⟨k1, e1⟩
    have hAf := assign_values_fields k m
    rw [hA] at hAf
    simp only [] at hAf
    rw [hA] at h
    rcases e1 with _ | e1
    · simp only [] at h ⊢
      rcases hP : processCriteria k1.solutions k1.criteria with ⟨cs, w, e2⟩
      rw [hP] at h
      rcases e2 with _ | e2
      · simp only [] at h ⊢
        rcases hF : flowLoop cs (w * ((k1.solutions.length : ℚ) - 1)) k1.solutions 0
          with ⟨sols', e3⟩
        rw [hF] at h
        rcases e3 with _ | e3
        · exact absurd rfl h
        · exact hAf.2.2.2.1
      · exact hAf.2.2.2.1
    · exact hAf.2.2.2.1

/-- Transfer of a pointwise property along an equality of mapped lists. -/
theorem forall_of_map_eq {α β : Type} {f : α → β} {l l' : List α}
    (h : l'.map f = l.map f) {p : β → Prop} (hp : ∀ x ∈ l, p (f x)) :
    ∀ x ∈ l', p (f x) := by
  intro x hx
  have hm : f x ∈ l'.map f := List.mem_map_of_mem f hx
  rw [h] at hm
  rcases List.mem_map.mp hm with ⟨y, hy, hfy⟩
  rw [← hfy]
  exact hp y hy

/-- Setting a list entry to the value it already holds is the identity. -/
theorem set_get_self {α : Type} : ∀ {l : List α} {i : ℕ} {a : α},
    l.get? i = some a → l.set i a = l := by
  intro l
  induction l with
  | nil => intro i a h; simp at h
  | cons x t ih =>
    intro i a h
    cases i with
    | zero =>
      simp only [List.get?] at h
      simp only [Option.some.injEq] at h
      simp [h]
    | succ j =>
      simp only [List.get?] at h
      simp [ih h]

/-- The constructor establishes the structural invariant. -/
theorem kernelInv_new (nc ns : ℕ) : KernelInv (Kernel.new nc ns) := by
  refine ⟨?_, ?_, ?_⟩
  · simp only [Kernel.new, List.map_map]
    have : (Solution.id ∘ Solution.new) = fun i => i := by
      funext i
      rfl
    rw [this, List.map_id']
  · simp only [Kernel.new, List.map_map]
    have : (KernelCriterion.id ∘ fun i => KernelCriterion.new i ns) = fun i => i := by
      funext i
      rfl
    rw [this, List.map_id']
  · intro kc hkc
    simp only [Kernel.new, List.mem_map] at hkc
    rcases hkc with ⟨i, _, rfl⟩
    simp [KernelCriterion.new, Kernel.new]

/-- A successful `set_criterion` keeps the structural invariant. -/
theorem kernelInv_set {k k' : Kernel} {id : ℕ} {c : Criterion} {w : ℚ}
    (h : k.set_criterion id c w = (k', none)) (hinv : KernelInv k) : KernelInv k' := by
  unfold Kernel.set_criterion at h
  split at h
  · simp at h
  next kc hget =>
    simp only [Prod.mk.injEq] at h
    rcases h with ⟨hk', _⟩
    subst hk'
    rcases hinv with ⟨hs, hi, hl⟩
    refine ⟨hs, ?_, ?_⟩
    · simp only []
      rw [List.map_set]
      simp only []
      have hgm : (k.criteria.map KernelCriterion.id).get? id = some kc.id := by
        rw [List.get?_map, hget]
        rfl
      rw [set_get_self hgm, hi]
    · intro kc' hkc'
      simp only [] at hkc'
      rcases List.mem_or_eq_of_mem_set hkc' with hmem | rfl
      · exact hl kc' hmem
      · exact hl kc (List.get?_mem hget)

/-- Any `rank` call keeps the structural invariant. -/
theorem kernelInv_rank {k : Kernel} (m : Mat) (hinv : KernelInv k) :
    KernelInv ((k.rank m).1) := by
  rcases rank_shape k m with ⟨h1, h2, h3, h4, h5⟩
  rcases hinv with ⟨hs, hi, hl⟩
  refine ⟨?_, ?_, ?_⟩
  · rw [h3, h2, hs]
  · rw [h4, h1, hi]
  · intro kc hkc
    rw [h2]
    exact @forall_of_map_eq _ _ _ _ _ h5 (fun n => n = k.nb_solutions) hl kc hkc

/-- Every reachable kernel satisfies the structural invariant. -/
theorem reachable_inv {k : Kernel} (h : Reachable k) : KernelInv k := by
  induction h with
  | new nc ns => exact kernelInv_new nc ns
  | set_criterion id c w _ hset ih => exact kernelInv_set hset ih
  | rank m _ hrank ih =>
    next k0 k' e _ =>
      have := kernelInv_rank m ih
      rw [hrank] at this
      exact this

/-- A successful `set_criterion` does not touch the solutions or counts. -/
theorem set_criterion_fields {k k' : Kernel} {id : ℕ} {c : Criterion} {w : ℚ}
    (h : k.set_criterion id c w = (k', none)) :
    k'.solutions = k.solutions ∧ k'.nb_solutions = k.nb_solutions ∧
    k'.nb_criteria = k.nb_criteria := by
  unfold Kernel.set_criterion at h
  split at h
  · simp at h
  · simp only [Prod.mk.injEq] at h
    rcases h with ⟨hk', _⟩
    subst hk'
    exact ⟨rfl, rfl, rfl⟩

/-- On a kernel that always takes the trivial-ranking guard (fewer than two
solutions or no criteria), the per-solution flows can never have been
written: they are zero in every reachable state. -/
theorem reachable_guard_flows_zero {k : Kernel} (h : Reachable k)
    (hg : k.nb_solutions < 2 ∨ k.nb_criteria = 0) :
    ∀ s ∈ k.solutions, s.fi = 0 ∧ s.fi_plus = 0 ∧ s.fi_minus = 0 := by
  induction h with
  | new nc ns =>
    intro s hs
    simp only [Kernel.new, List.mem_map] at hs
    rcases hs with ⟨i, _, rfl⟩
    exact ⟨rfl, rfl, rfl⟩
  | set_criterion id c w _ hset ih =>
    rcases set_criterion_fields hset with ⟨hsols, hns, hnc⟩
    rw [hns, hnc] at hg
    rw [hsols]
    exact ih hg
  | rank m hmem hrank ih =>
    rename_i k0 k1 e0
    have hshape := rank_shape k0 m
    rw [hrank] at hshape
    simp only [] at hshape
    have hg0 : k0.nb_solutions < 2 ∨ k0.nb_criteria = 0 := by
      rw [← hshape.2.1, ← hshape.1]
      exact hg
    have hgr := rank_guard k0 m hg0
    rw [hgr] at hrank
    simp only [Prod.mk.injEq] at hrank
    rcases hrank with ⟨hk1, _⟩
    rw [← hk1]
    exact ih hg0

/-- C10: on every reachable kernel with fewer than 2 solutions or no
criteria, `rank` returns without error, sets `ordered_solutions` to the
solutions in original identifier order, and all per-solution flows are
zero after the call. -/
theorem C10_guard_trivial_ranking (k : Kernel) (m : Mat) (hr : Reachable k)
    (hg : k.nb_solutions < 2 ∨ k.nb_criteria = 0) :
    (k.rank m).2 = none ∧
    (k.rank m).1.ordered_solutions = k.solutions ∧
    (k.rank m).1.ordered_solutions.map Solution.id = List.range k.nb_solutions ∧
    ∀ s ∈ (k.rank m).1.ordered_solutions,
      s.fi = 0 ∧ s.fi_plus = 0 ∧ s.fi_minus = 0 := by
  have hgr := rank_guard k m hg
  rw [hgr]
  exact ⟨rfl, rfl, (reachable_inv hr).1, reachable_guard_flows_zero hr hg⟩

/-- Witness for C10: a fresh kernel with 2 criteria and a single solution. -/
theorem C10_guard_trivial_ranking_witness :
    Reachable (Kernel.new 2 1) ∧
    ((Kernel.new 2 1).nb_solutions < 2 ∨ (Kernel.new 2 1).nb_criteria = 0) ∧
    (((Kernel.new 2 1).rank { rows := 0, cols := 0, entry := fun _ _ => 0 }).2 = none ∧
      ((Kernel.new 2 1).rank { rows := 0, cols := 0, entry := fun _ _ => 0 }).1.ordered_solutions
        = (Kernel.new 2 1).solutions) :=
  ⟨Reachable.new 2 1, Or.inl (by norm_num [Kernel.new]),
   (C10_guard_trivial_ranking (Kernel.new 2 1) { rows := 0, cols := 0, entry := fun _ _ => 0 }
      (Reachable.new 2 1) (Or.inl (by norm_num [Kernel.new]))).1,
   (C10_guard_trivial_ranking (Kernel.new 2 1) { rows := 0, cols := 0, entry := fun _ _ => 0 }
      (Reachable.new 2 1) (Or.inl (by norm_num [Kernel.new]))).2.1⟩

/-!  ## Theorems: the final stable sort (C6)  -/

/-- Two distinct members of a list appear in one order or the other. -/
theorem mem_mem_sublist {α : Type} {l : List α} {a b : α}
    (ha : a ∈ l) (hb : b ∈ l) (hne : a ≠ b) :
    List.Sublist [a, b] l ∨ List.Sublist [b, a] l := by
  induction l with
  | nil => cases ha
  | cons x t ih =>
    rcases List.mem_cons.mp ha with rfl | hat
    · have hbt : b ∈ t := by
        rcases List.mem_cons.mp hb with rfl | h
        · exact absurd rfl hne
        · exact h
      exact Or.inl ((List.singleton_sublist.mpr hbt).cons₂ a)
    · rcases List.mem_cons.mp hb with rfl | hbt
      · exact Or.inr ((List.singleton_sublist.mpr hat).cons₂ b)
      · rcases ih hat hbt with h | h
        · exact Or.inl (h.cons x)
        · exact Or.inr (h.cons x)

/-- In a duplicate-free list, a pair cannot occur in both orders. -/
theorem pair_sublist_antisym {α : Type} : ∀ {s : List α} {a b : α},
    s.Nodup → List.Sublist [a, b] s → List.Sublist [b, a] s → a = b := by
  intro s
  induction s with
  | nil =>
    intro a b _ h1 _
    cases h1
  | cons x t ih =>
    intro a b hnd h1 h2
    rcases List.nodup_cons.mp hnd with ⟨hx, hndt⟩
    cases h1 with
    | cons _ h1' =>
      cases h2 with
      | cons _ h2' => exact ih hndt h1' h2'
      | cons₂ _ h2' =>
        have hxt : x ∈ t := h1'.subset (show x ∈ [a, x] by simp)
        exact absurd hxt hx
    | cons₂ _ h1' =>
      cases h2 with
      | cons _ h2' =>
        have hxt : x ∈ t := h2'.subset (show x ∈ [b, x] by simp)
        exact absurd hxt hx
      | cons₂ _ h2' => rfl

/-- Stable tie-break of the final sort: when the input solutions have
strictly increasing identifiers, any two equal-`fi` solutions appear in the
sorted output in ascending identifier order. -/
theorem sortSolutions_tie_stable {l : List Solution}
    (h : l.Pairwise (fun a b => a.id < b.id)) :
    (sortSolutions l).Pairwise (fun a b => a.fi = b.fi → a.id < b.id) := by
  rw [List.pairwise_iff_forall_sublist]
  intro a b hab
  intro hfi
  have hnd : l.Nodup := h.imp (fun hlt heq => absurd (heq ▸ hlt) (lt_irrefl _))
  have hperm : List.Perm (sortSolutions l) l := List.perm_insertionSort solGE l
  have hnds : (sortSolutions l).Nodup := hperm.nodup_iff.mpr hnd
  have hane : a ≠ b := by
    rintro rfl
    have hcount := hab.count_le a
    simp only [List.count_cons, List.count_nil] at hcount
    have hle1 := List.nodup_iff_count_le_one.mp hnds a
    simp at hcount
    omega
  have hamem : a ∈ l := hperm.subset (hab.subset (by simp))
  have hbmem : b ∈ l := hperm.subset (hab.subset (by simp))
  rcases mem_mem_sublist hamem hbmem hane with hl | hl
  · exact List.pairwise_iff_forall_sublist.mp h hl
  · have hge : solGE b a := le_of_eq hfi
    have hs : List.Sublist [b, a] (sortSolutions l) :=
      List.pair_sublist_insertionSort hge hl
    exact absurd (pair_sublist_antisym hnds hab hs) hane

/-- C6: after every successful `rank` call on a reachable kernel,
`ordered_solutions` is a permutation of all `nb_solutions` solutions,
arranged in non-increasing order of `fi`, and any two solutions with equal
`fi` appear in ascending order of their original identifier. -/
theorem C6_ordered_solutions (k : Kernel) (m : Mat) (hr : Reachable k)
    (hok : (k.rank m).2 = none) :
    List.Perm (k.rank m).1.ordered_solutions (k.rank m).1.solutions ∧
    (k.rank m).1.ordered_solutions.length = k.nb_solutions ∧
    (k.rank m).1.ordered_solutions.Pairwise (fun a b => b.fi ≤ a.fi) ∧
    (k.rank m).1.ordered_solutions.Pairwise (fun a b => a.fi = b.fi → a.id < b.id) := by
  have hids : (k.rank m).1.solutions.map Solution.id = List.range k.nb_solutions := by
    rw [(rank_shape k m).2.2.1, (reachable_inv hr).1]
  have hlen : (k.rank m).1.solutions.length = k.nb_solutions := by
    have := congrArg List.length hids
    simpa using this
  have hpw : (k.rank m).1.solutions.Pairwise (fun a b => a.id < b.id) := by
    have hrange : ((k.rank m).1.solutions.map Solution.id).Pairwise (fun a b => a < b) := by
      rw [hids]
      exact List.pairwise_lt_range _
    exact List.pairwise_map.mp hrange
  by_cases hg : k.nb_solutions < 2 ∨ k.nb_criteria = 0
  · have hgr := rank_guard k m hg
    have hzero := reachable_guard_flows_zero hr hg
    have hordeq : (k.rank m).1.ordered_solutions = (k.rank m).1.solutions := by
      rw [hgr]
    rw [hordeq]
    refine ⟨List.Perm.refl _, hlen, ?_, ?_⟩
    · rw [List.pairwise_iff_forall_sublist]
      intro a b hab
      have hsols : (k.rank m).1.solutions = k.solutions := by rw [hgr]
      have ha : a ∈ k.solutions := by
        rw [← hsols]
        exact hab.subset (by simp)
      have hb : b ∈ k.solutions := by
        rw [← hsols]
        exact hab.subset (by simp)
      rw [(hzero a ha).1, (hzero b hb).1]
    · exact List.Pairwise.imp (fun hlt => fun _ => hlt) hpw
  · rcases rank_ok_decomp k m hg hok with ⟨k1, cs, w, _, _, _, _, _, _, _, hord, _, _, _⟩
    rw [hord]
    refine ⟨List.perm_insertionSort solGE _, ?_, ?_, sortSolutions_tie_stable hpw⟩
    · rw [sortSolutions, List.length_insertionSort, hlen]
    · have hs := List.sorted_insertionSort solGE (k.rank m).1.solutions
      exact hs.imp (fun h => h)

/-- The two-solution fixture kernel is reachable. -/
theorem kernelTwoSol_reachable : Reachable kernelTwoSol :=
  Reachable.set_criterion 0
    (LinearCriterion.new "crit" CriterionType.LinearMaximize (1/4) (1/16)) 1
    (Reachable.new 1 2) rfl

/-- Ranking the two-solution fixture kernel succeeds. -/
theorem kernelTwoSol_rank_ok : (kernelTwoSol.rank matTwoSol).2 = none := by
  norm_num [Kernel.rank, Kernel.new, Kernel.set_criterion, Kernel.assign_values, assignAll,
    assignCriterion, assignLoop, setCellValue, processCriteria, KernelCriterion.normalize,
    KernelCriterion.compute_fis, KernelCriterion.new, CriterionSolutionValue.new, foldMax,
    foldMin, Criterion.compute_pref, LinearCriterion.new, Solution.new, Mat.get, flowLoop,
    flowSolution, weightedSumPlus, weightedSumMinus, solutionCell, sortSolutions,
    List.insertionSort, List.orderedInsert, solGE, kernelTwoSol, matTwoSol,
    List.replicate, List.set, List.foldl, List.zip, List.zipWith, List.drop, List.map,
    List.range, List.range_succ, List.get?, List.getD, abs_of_nonneg, abs_of_nonpos]

/-- Witness for C6 on the two-solution fixture kernel. -/
theorem C6_ordered_solutions_witness :
    Reachable kernelTwoSol ∧ (kernelTwoSol.rank matTwoSol).2 = none ∧
    List.Perm (kernelTwoSol.rank matTwoSol).1.ordered_solutions
      (kernelTwoSol.rank matTwoSol).1.solutions :=
  ⟨kernelTwoSol_reachable, kernelTwoSol_rank_ok,
   (C6_ordered_solutions kernelTwoSol matTwoSol kernelTwoSol_reachable
      kernelTwoSol_rank_ok).1⟩

/-!  ## Theorems: aggregated solution flows (C5)  -/

/-- Transport of `List.get` along an equality of lists. -/
theorem get_congr {α : Type} {l l' : List α} (h : l = l') {i : ℕ} (hi : i < l.length)
    (hi' : i < l'.length) : l.get ⟨i, hi⟩ = l'.get ⟨i, hi'⟩ := by
  subst h
  rfl

/-- A left fold of additions is the start plus the sum of the terms. -/
theorem foldl_add_eq (g : KernelCriterion → ℚ) : ∀ (cs : List KernelCriterion) (a : ℚ),
    cs.foldl (fun acc kc => acc + g kc) a = a + (cs.map g).sum := by
  intro cs
  induction cs with
  | nil => intro a; simp
  | cons kc rest ih =>
    intro a
    simp only [List.foldl, List.map_cons, List.sum_cons]
    rw [ih (a + g kc)]
    ring

/-- Terms that vanish on weight-0 criteria can be summed over the criteria
of nonzero weight only. -/
theorem sum_map_filter_weight (g : KernelCriterion → ℚ)
    (hg : ∀ kc, kc.weight = 0 → g kc = 0) : ∀ cs : List KernelCriterion,
    (cs.map g).sum = ((cs.filter (fun kc => decide (kc.weight ≠ 0))).map g).sum := by
  intro cs
  induction cs with
  | nil => rfl
  | cons kc rest ih =>
    by_cases hz : kc.weight = 0
    · rw [List.map_cons, List.sum_cons, hg kc hz, List.filter_cons,
        if_neg (by simp [hz]), zero_add]
      exact ih
    · rw [List.map_cons, List.sum_cons, List.filter_cons, if_pos (by simp [hz]),
        List.map_cons, List.sum_cons, ih]

/-- The weighted positive flow sum ignores weight-0 criteria. -/
theorem weightedSumPlus_filter (cs : List KernelCriterion) (s : ℕ) :
    weightedSumPlus cs s =
      weightedSumPlus (cs.filter (fun kc => decide (kc.weight ≠ 0))) s := by
  unfold weightedSumPlus
  rw [foldl_add_eq, foldl_add_eq, zero_add, zero_add]
  exact sum_map_filter_weight _ (fun kc hz => by rw [hz, zero_mul]) cs

/-- The weighted negative flow sum ignores weight-0 criteria. -/
theorem weightedSumMinus_filter (cs : List KernelCriterion) (s : ℕ) :
    weightedSumMinus cs s =
      weightedSumMinus (cs.filter (fun kc => decide (kc.weight ≠ 0))) s := by
  unfold weightedSumMinus
  rw [foldl_add_eq, foldl_add_eq, zero_add, zero_add]
  exact sum_map_filter_weight _ (fun kc hz => by rw [hz, zero_mul]) cs

/-- C5: after a successful `rank` with at least 2 solutions, at least one
criterion and positive total weight, every solution's `fi_plus` is the
weighted sum of its cells' `fi_plus` divided by `totalWeight *
(nb_solutions - 1)`, `fi_minus` likewise from the cells' `fi_minus`,
`fi = fi_plus - fi_minus`, and criteria of weight 0 contribute nothing to
either weighted sum. -/
theorem C5_aggregated_flows (k : Kernel) (m : Mat) (hr : Reachable k)
    (hn : 2 ≤ k.nb_solutions) (hm : 1 ≤ k.nb_criteria) (hw : 0 < k.totalWeight)
    (hok : (k.rank m).2 = none) :
    ∀ i, (hi : i < (k.rank m).1.solutions.length) →
      ((k.rank m).1.solutions.get ⟨i, hi⟩).fi_plus =
        weightedSumPlus (k.rank m).1.criteria i /
          (k.totalWeight * ((k.nb_solutions : ℚ) - 1)) ∧
      ((k.rank m).1.solutions.get ⟨i, hi⟩).fi_minus =
        weightedSumMinus (k.rank m).1.criteria i /
          (k.totalWeight * ((k.nb_solutions : ℚ) - 1)) ∧
      ((k.rank m).1.solutions.get ⟨i, hi⟩).fi =
        ((k.rank m).1.solutions.get ⟨i, hi⟩).fi_plus -
          ((k.rank m).1.solutions.get ⟨i, hi⟩).fi_minus ∧
      weightedSumPlus (k.rank m).1.criteria i =
        weightedSumPlus ((k.rank m).1.criteria.filter (fun kc => decide (kc.weight ≠ 0))) i ∧
      weightedSumMinus (k.rank m).1.criteria i =
        weightedSumMinus ((k.rank m).1.criteria.filter (fun kc => decide (kc.weight ≠ 0))) i := by
  have hng : ¬ (k.nb_solutions < 2 ∨ k.nb_criteria = 0) := by omega
  rcases rank_ok_decomp k m hng hok with
    ⟨k1, cs, w, hA, hP, hFok, hnbc, hnbs, hcrit, hsols, hord, hk1s, hk1nc, hk1ns⟩
  have hAf := assign_values_fields k m
  rw [hA] at hAf
  simp only [] at hAf
  have hwmap : k1.criteria.map KernelCriterion.weight
      = k.criteria.map KernelCriterion.weight := by
    rw [hAf.2.2.2.2.1, (assignAll_shape m k.nb_solutions k.criteria).1]
  have hwsum : w = k.totalWeight := by
    rw [processCriteria_weight_sum k1.solutions k1.criteria cs w hP, hwmap]
    rfl
  have hlen1 : k1.solutions.length = k.nb_solutions := by
    rw [hk1s]
    have := congrArg List.length (reachable_inv hr).1
    simpa using this
  have hd : w * ((k1.solutions.length : ℚ) - 1) =
      k.totalWeight * ((k.nb_solutions : ℚ) - 1) := by
    rw [hwsum, hlen1]
  have hdpos : (0:ℚ) < k.totalWeight * ((k.nb_solutions : ℚ) - 1) := by
    apply mul_pos hw
    have h2 : (2:ℚ) ≤ (k.nb_solutions : ℚ) := by exact_mod_cast hn
    linarith
  have hdne : k.totalWeight * ((k.nb_solutions : ℚ) - 1) ≠ 0 := ne_of_gt hdpos
  have hdne' : w * ((k1.solutions.length : ℚ) - 1) ≠ 0 := by
    rw [hd]
    exact hdne
  intro i hi
  have hflen : i <
      (flowLoop cs (w * ((k1.solutions.length : ℚ) - 1)) k1.solutions 0).1.length := by
    rw [← hsols]
    exact hi
  have hi' : i < k1.solutions.length := by
    rw [flowLoop_length] at hflen
    exact hflen
  have hget := get_congr hsols hi hflen
  have hformula := flowLoop_get_ne_zero cs _ hdne' k1.solutions 0 i hflen hi'
  have hfs := flowSolution_ne_zero cs (w * ((k1.solutions.length : ℚ) - 1)) (0 + i)
    (k1.solutions.get ⟨i, hi'⟩) hdne'
  rw [hget, hformula, hcrit]
  refine ⟨?_, ?_, ?_, weightedSumPlus_filter cs i, weightedSumMinus_filter cs i⟩
  · rw [hfs.2.2.1, Nat.zero_add, hd]
  · rw [hfs.2.2.2.1, Nat.zero_add, hd]
  · rw [hfs.2.2.2.2, hfs.2.2.1, hfs.2.2.2.1]

/-- Witness for C5 on the two-solution fixture kernel. -/
theorem C5_aggregated_flows_witness :
    Reachable kernelTwoSol ∧ 2 ≤ kernelTwoSol.nb_solutions ∧
    1 ≤ kernelTwoSol.nb_criteria ∧ 0 < kernelTwoSol.totalWeight ∧
    (kernelTwoSol.rank matTwoSol).2 = none ∧
    ∀ i, (hi : i < (kernelTwoSol.rank matTwoSol).1.solutions.length) →
      ((kernelTwoSol.rank matTwoSol).1.solutions.get ⟨i, hi⟩).fi =
        ((kernelTwoSol.rank matTwoSol).1.solutions.get ⟨i, hi⟩).fi_plus -
          ((kernelTwoSol.rank matTwoSol).1.solutions.get ⟨i, hi⟩).fi_minus :=
  have h2 : 2 ≤ kernelTwoSol.nb_solutions := by
    norm_num [kernelTwoSol, Kernel.set_criterion, Kernel.new]
  have h1 : 1 ≤ kernelTwoSol.nb_criteria := by
    norm_num [kernelTwoSol, Kernel.set_criterion, Kernel.new]
  have hwpos : 0 < kernelTwoSol.totalWeight := by
    norm_num [kernelTwoSol, Kernel.totalWeight, Kernel.set_criterion, Kernel.new,
      KernelCriterion.new, List.range, List.range_succ, List.map, List.set, List.get?]
  ⟨kernelTwoSol_reachable, h2, h1, hwpos, kernelTwoSol_rank_ok,
   fun i hi => (C5_aggregated_flows kernelTwoSol matTwoSol kernelTwoSol_reachable
      h2 h1 hwpos kernelTwoSol_rank_ok i hi).2.2.1⟩

/-!  ## Theorems: matrix shape handling (C9)  -/

/-- C9 counterexample: `rank` called on a kernel with 2 solutions and 1
criterion and a 3x2 matrix — larger in both dimensions — completes the
ranking without any error, reading only the top-left 2x1 submatrix; the
claim requires the call to fail for any mismatched shape. -/
theorem C9_counterexample :
    matLarger.rows = 3 ∧ matLarger.cols = 2 ∧ kernelTwoSol.nb_solutions = 2 ∧
    kernelTwoSol.nb_criteria = 1 ∧
    (kernelTwoSol.rank matLarger).2 = none ∧
    (kernelTwoSol.rank matLarger).1.ordered_solutions.map Solution.id = [1, 0] := by
  norm_num [Kernel.rank, Kernel.new, Kernel.set_criterion, Kernel.assign_values, assignAll,
    assignCriterion, assignLoop, setCellValue, processCriteria, KernelCriterion.normalize,
    KernelCriterion.compute_fis, KernelCriterion.new, CriterionSolutionValue.new, foldMax,
    foldMin, Criterion.compute_pref, LinearCriterion.new, Solution.new, Mat.get, flowLoop,
    flowSolution, weightedSumPlus, weightedSumMinus, solutionCell, sortSolutions,
    List.insertionSort, List.orderedInsert, solGE, kernelTwoSol, matLarger,
    List.replicate, List.set, List.foldl, List.zip, List.zipWith, List.drop, List.map,
    List.range, List.range_succ, List.get?, List.getD, abs_of_nonneg, abs_of_nonpos]

/-- C9 amended: on a reachable kernel with at least 2 solutions and one
criterion, a matrix that is smaller than `(nb_solutions, nb_criteria)` in
either dimension makes `rank` fail with an `IndexError`, leaving
`ordered_solutions` unchanged; a larger matrix is not rejected (see the
counterexample). -/
theorem C9_smaller_matrix_fails (k : Kernel) (m : Mat) (hr : Reachable k)
    (hn : 2 ≤ k.nb_solutions) (hm : 1 ≤ k.nb_criteria)
    (hsmall : m.rows < k.nb_solutions ∨ m.cols < k.nb_criteria) :
    (k.rank m).2 = some PyError.indexError ∧
    (k.rank m).1.ordered_solutions = k.ordered_solutions := by
  have hng : ¬ (k.nb_solutions < 2 ∨ k.nb_criteria = 0) := by omega
  have hassign : (assignAll m k.nb_solutions k.criteria).2 ≠ none := by
    intro hok2
    have hb := assignAll_ok_bounds m k.nb_solutions k.criteria hok2 (by omega)
    have hmem : (k.nb_criteria - 1) ∈ k.criteria.map KernelCriterion.id := by
      rw [(reachable_inv hr).2.1]
      exact List.mem_range.mpr (by omega)
    rcases List.mem_map.mp hmem with ⟨kc, hkc, hid⟩
    rcases hb kc hkc with ⟨hrows, hcols⟩
    rw [hid] at hcols
    omega
  have herr : (assignAll m k.nb_solutions k.criteria).2 = some PyError.indexError := by
    rcases assignAll_error m k.nb_solutions k.criteria with h | h
    · exact absurd h hassign
    · exact h
  have h2 : (k.rank m).2 = some PyError.indexError := by
    unfold Kernel.rank
    rw [if_neg hng]
    rcases hA : k.assign_values m with ⟨k1, e1⟩
    have hAf := assign_values_fields k m
    rw [hA] at hAf
    simp only [] at hAf
    have he1 : e1 = some PyError.indexError := hAf.2.2.2.2.2.trans herr
    rw [he1]
  exact ⟨h2, rank_error_ordered k m (by rw [h2]; exact Option.noConfusion)⟩

/-- Witness for the amended C9 on the fixture kernel and a 1x1 matrix. -/
theorem C9_smaller_matrix_fails_witness :
    Reachable kernelTwoSol ∧ 2 ≤ kernelTwoSol.nb_solutions ∧
    1 ≤ kernelTwoSol.nb_criteria ∧
    (matSmaller.rows < kernelTwoSol.nb_solutions ∨
      matSmaller.cols < kernelTwoSol.nb_criteria) ∧
    (kernelTwoSol.rank matSmaller).2 = some PyError.indexError :=
  have h2 : 2 ≤ kernelTwoSol.nb_solutions := by
    norm_num [kernelTwoSol, Kernel.set_criterion, Kernel.new]
  have h1 : 1 ≤ kernelTwoSol.nb_criteria := by
    norm_num [kernelTwoSol, Kernel.set_criterion, Kernel.new]
  have hsm : matSmaller.rows < kernelTwoSol.nb_solutions ∨
      matSmaller.cols < kernelTwoSol.nb_criteria :=
    Or.inl (by norm_num [matSmaller, kernelTwoSol, Kernel.set_criterion, Kernel.new])
  ⟨kernelTwoSol_reachable, h2, h1, hsm,
   (C9_smaller_matrix_fails kernelTwoSol matSmaller kernelTwoSol_reachable h2 h1 hsm).1⟩

end Promethee

namespace PyFloat

/-!  ## Theorems: zero total weight under numpy scalar semantics (C7)  -/

/-- Projections of the tagged-scalar `_assign_values`. -/
theorem pyAssign_fields (k : Kernel) (m : Promethee.Mat) :
    (k.assign_values m).1.nb_criteria = k.nb_criteria ∧
    (k.assign_values m).1.nb_solutions = k.nb_solutions ∧
    (k.assign_values m).1.solutions = k.solutions ∧
    (k.assign_values m).1.ordered_solutions = k.ordered_solutions ∧
    (k.assign_values m).1.criteria = (assignAll m k.nb_solutions k.criteria).1 ∧
    (k.assign_values m).2 = (assignAll m k.nb_solutions k.criteria).2 :=
  ⟨rfl, rfl, rfl, rfl, rfl, rfl⟩

/-- The tagged-scalar assignment loops keep every criterion's weight. -/
theorem pyAssignAll_weights (m : Promethee.Mat) (n : ℕ) : ∀ cs : List KernelCriterion,
    (assignAll m n cs).1.map KernelCriterion.weight = cs.map KernelCriterion.weight := by
  intro cs
  induction cs with
  | nil => simp [assignAll]
  | cons kc rest ih =>
    simp only [assignAll, assignCriterion]
    split
    · simp
    · simp only [List.map_cons]
      rw [ih]

/-- A successful tagged-scalar `normalize` only rewrites the cell list. -/
theorem pyNormalize_ok_shape {kc kc' : KernelCriterion}
    (h : kc.normalize = Except.ok kc') :
    ∃ vals, kc' = { kc with values := vals } := by
  unfold KernelCriterion.normalize at h
  rcases hcrit : kc.criterion with _ | c
  · rw [hcrit] at h
    exact absurd h (by simp)
  rw [hcrit] at h
  by_cases hn : c.normalized
  · simp only [hn, if_true] at h
    rcases hvals : kc.values with _ | ⟨v0, rest⟩
    · rw [hvals] at h
      exact absurd h (by simp)
    · rw [hvals] at h
      simp only at h
      split_ifs at h with hdiff
      · rcases hnv : normalizeVals
            (rest.foldl (fun mn v => if v.value.lt mn then v.value else mn) v0.value)
            ((rest.foldl (fun mx v => if mx.lt v.value then v.value else mx) v0.value).sub
              (rest.foldl (fun mn v => if v.value.lt mn then v.value else mn) v0.value))
            (v0 :: rest) with e | vals
        · rw [hnv] at h
          exact absurd h (by simp)
        · rw [hnv] at h
          simp only [Except.ok.injEq] at h
          exact ⟨vals, h.symm⟩
      · simp only [Except.ok.injEq] at h
        exact ⟨_, h.symm⟩
  · simp only [hn] at h
    simp only [Bool.false_eq_true, if_false] at h
    simp only [Except.ok.injEq] at h
    exact ⟨_, h.symm⟩

/-- A successful tagged-scalar `compute_fis` only rewrites the cell list. -/
theorem pyFis_ok_shape {kc kc' : KernelCriterion} {sols : List Solution}
    (h : kc.compute_fis sols = Except.ok kc') :
    ∃ vals, kc' = { kc with values := vals } := by
  unfold KernelCriterion.compute_fis at h
  rcases hcrit : kc.criterion with _ | c
  · rw [hcrit] at h
    exact absurd h (by simp)
  rw [hcrit] at h
  simp only at h
  rcases hfo : fisOuter c (sols.zip kc.values) (sols.zip kc.values) with e | updated
  · rw [hfo] at h
    exact absurd h (by simp)
  · rw [hfo] at h
    simp only [Except.ok.injEq] at h
    exact ⟨_, h.symm⟩

/-- The tagged-scalar criteria loop keeps every criterion's weight. -/
theorem pyProcess_weights (sols : List Solution) : ∀ cs : List KernelCriterion,
    (processCriteria sols cs).1.map KernelCriterion.weight =
      cs.map KernelCriterion.weight := by
  intro cs
  induction cs with
  | nil => simp [processCriteria]
  | cons kc rest ih =>
    simp only [processCriteria]
    rcases hn : kc.normalize with e | kc1
    · simp
    rcases pyNormalize_ok_shape hn with ⟨vals1, rfl⟩
    rcases hf : KernelCriterion.compute_fis { kc with values := vals1 } sols with e | kc2
    · simp only [hf]
      simp
    rcases pyFis_ok_shape hf with ⟨vals2, rfl⟩
    simp only [hf]
    rcases hrr : processCriteria sols rest with ⟨rest', w, e'⟩
    rw [hrr] at ih
    rcases e' with _ | e'
    · simp only [List.map_cons] at ih ⊢
      rw [ih]
    · simp only [List.map_cons] at ih ⊢
      rw [ih]

/-- On success the tagged-scalar criteria loop accumulates the sum of the
criteria weights. -/
theorem pyProcess_weight_sum (sols : List Solution) : ∀ (cs cs' : List KernelCriterion)
    (w : ℚ), processCriteria sols cs = (cs', w, none) →
    w = (cs.map KernelCriterion.weight).sum := by
  intro cs
  induction cs with
  | nil =>
    intro cs' w h
    simp only [processCriteria, Prod.mk.injEq] at h
    rcases h with ⟨_, hw, _⟩
    simp [← hw]
  | cons kc rest ih =>
    intro cs' w h
    simp only [processCriteria] at h
    split at h
    · simp at h
    next kc1 hn =>
      split at h
      · simp at h
      next kc2 hf =>
        split at h
        · simp at h
        next hnone =>
          simp only [Prod.mk.injEq] at h
          rcases h with ⟨_, hw, _⟩
          rcases pyNormalize_ok_shape hn with ⟨vals1, rfl⟩
          rcases pyFis_ok_shape hf with ⟨vals2, rfl⟩
          rcases hrr : processCriteria sols rest with ⟨rest', w', e2⟩
          rw [hrr] at hnone hw
          simp only [] at hnone hw
          rw [← hw, ih rest' w' (by rw [hrr, hnone]), List.map_cons, List.sum_cons]

/-- A list of nonnegative rationals of sum zero is everywhere zero. -/
theorem pySum_zero_of_nonneg : ∀ {l : List ℚ}, (∀ x ∈ l, 0 ≤ x) → l.sum = 0 →
    ∀ x ∈ l, x = 0 := by
  intro l
  induction l with
  | nil => intro _ _ x hx; cases hx
  | cons y t ih =>
    intro hpos hsum x hx
    have hy : 0 ≤ y := hpos y (by simp)
    have ht : 0 ≤ t.sum := List.sum_nonneg (fun z hz => hpos z (by simp [hz]))
    rw [List.sum_cons] at hsum
    have hy0 : y = 0 := by linarith
    have ht0 : t.sum = 0 := by linarith
    rcases List.mem_cons.mp hx with rfl | hx
    · exact hy0
    · exact ih (fun z hz => hpos z (by simp [hz])) ht0 x hx

/-- Multiplying any scalar by the plain Python float `0.0` yields finite
zero or NaN. -/
theorem pyMul_zero (x : PyVal) : zeroOrNan ((py 0).mul x) := by
  rcases x with ⟨v, b⟩ | ⟨p, b⟩ | b
  · left
    exact ⟨b, by simp [py, PyVal.mul]⟩
  · right
    exact ⟨false || b, by simp [py, PyVal.mul]⟩
  · right
    exact ⟨false || b, by simp [py, PyVal.mul, PyVal.isnp]⟩

/-- Adding two finite-zero-or-NaN scalars yields finite zero or NaN. -/
theorem pyAdd_zeroOrNan {x y : PyVal} (hx : zeroOrNan x) (hy : zeroOrNan y) :
    zeroOrNan (x.add y) := by
  rcases hx with ⟨t, rfl⟩ | ⟨t, rfl⟩
  · rcases hy with ⟨u, rfl⟩ | ⟨u, rfl⟩
    · exact Or.inl ⟨t || u, by simp [PyVal.add]⟩
    · exact Or.inr ⟨t || u, by simp [PyVal.add, PyVal.isnp]⟩
  · rcases hy with ⟨u, rfl⟩ | ⟨u, rfl⟩
    · exact Or.inr ⟨t || u, by simp [PyVal.add, PyVal.isnp]⟩
    · exact Or.inr ⟨t || u, by simp [PyVal.add, PyVal.isnp]⟩

/-- With all weights zero, the accumulated weighted flow sums are finite
zero or NaN. -/
theorem pyWeightedSum_zero {cs : List KernelCriterion}
    (hz : ∀ kc ∈ cs, kc.weight = 0) (s : ℕ) :
    zeroOrNan (weightedSumPlus cs s) ∧ zeroOrNan (weightedSumMinus cs s) := by
  have haux : ∀ (g : KernelCriterion → Cell) (l : List KernelCriterion),
      (∀ kc ∈ l, kc.weight = 0) → ∀ (a : PyVal), zeroOrNan a →
      zeroOrNan (l.foldl (fun acc kc => acc.add ((py kc.weight).mul (g kc).fi_plus)) a) ∧
      zeroOrNan (l.foldl (fun acc kc => acc.add ((py kc.weight).mul (g kc).fi_minus)) a) := by
    intro g l
    induction l with
    | nil => intro _ a ha; exact ⟨ha, ha⟩
    | cons kc rest ih =>
      intro hzl a ha
      have hw0 : kc.weight = 0 := hzl kc (by simp)
      have hzrest : ∀ kc' ∈ rest, kc'.weight = 0 := fun kc' h => hzl kc' (by simp [h])
      constructor
      · refine (ih hzrest _ ?_).1
        show zeroOrNan (a.add ((py kc.weight).mul (g kc).fi_plus))
        rw [hw0]
        exact pyAdd_zeroOrNan ha (pyMul_zero _)
      · refine (ih hzrest _ ?_).2
        show zeroOrNan (a.add ((py kc.weight).mul (g kc).fi_minus))
        rw [hw0]
        exact pyAdd_zeroOrNan ha (pyMul_zero _)
  have h1 := (haux (fun kc => solutionCell kc s) cs hz (py 0) (Or.inl ⟨false, rfl⟩)).1
  have h2 := (haux (fun kc => solutionCell kc s) cs hz (py 0) (Or.inl ⟨false, rfl⟩)).2
  exact ⟨h1, h2⟩

/-- Dividing finite zero or NaN by the plain Python float `0.0` either
raises `ZeroDivisionError` (plain Python dividend) or yields NaN (numpy
dividend). -/
theorem pyDiv_zero {x : PyVal} (hx : zeroOrNan x) :
    x.div (py 0) = Except.error Promethee.PyError.zeroDivisionError ∨
    x.div (py 0) = Except.ok (PyVal.nan true) := by
  rcases hx with ⟨t, rfl⟩ | ⟨t, rfl⟩
  · cases t
    · left
      simp [PyVal.div, py, PyVal.isnp]
    · right
      simp [PyVal.div, py, PyVal.isnp]
  · cases t
    · left
      simp [PyVal.div, py, PyVal.isnp]
    · right
      simp [PyVal.div, py, PyVal.isnp]

/-- With all weights zero and a zero divisor, a per-solution flow
computation that does not raise produces NaN for all three flows. -/
theorem pyFlowSolution_zero {cs : List KernelCriterion} {s : ℕ} {sol : Solution}
    (hz : ∀ kc ∈ cs, kc.weight = 0)
    (hok : (flowSolution cs 0 s sol).2 = none) :
    (flowSolution cs 0 s sol).1.fi = PyVal.nan true ∧
    (flowSolution cs 0 s sol).1.fi_plus = PyVal.nan true ∧
    (flowSolution cs 0 s sol).1.fi_minus = PyVal.nan true := by
  rcases pyWeightedSum_zero hz s with ⟨hp, hm⟩
  unfold flowSolution at hok ⊢
  simp only [] at hok ⊢
  rcases pyDiv_zero hp with hdp | hdp
  · rw [hdp] at hok
    simp at hok
  · rw [hdp] at hok ⊢
    simp only [] at hok ⊢
    rcases pyDiv_zero hm with hdm | hdm
    · rw [hdm] at hok
      simp at hok
    · rw [hdm] at hok ⊢
      exact ⟨rfl, rfl, rfl⟩

/-- With all weights zero and a zero divisor, a flow loop that finishes
without raising leaves every solution with NaN flows. -/
theorem pyFlowLoop_zero {cs : List KernelCriterion}
    (hz : ∀ kc ∈ cs, kc.weight = 0) : ∀ (sols : List Solution) (s0 : ℕ)
    (out : List Solution), flowLoop cs 0 sols s0 = (out, none) →
    ∀ so ∈ out, so.fi = PyVal.nan true ∧ so.fi_plus = PyVal.nan true ∧
      so.fi_minus = PyVal.nan true := by
  intro sols
  induction sols with
  | nil =>
    intro s0 out h so hso
    simp only [flowLoop, Prod.mk.injEq] at h
    rw [← h.1] at hso
    cases hso
  | cons sol rest ih =>
    intro s0 out h so hso
    simp only [flowLoop] at h
    rcases hfs : flowSolution cs 0 s0 sol with ⟨sol', e'⟩
    rw [hfs] at h
    rcases e' with _ | e'
    · simp only [Prod.mk.injEq] at h
      rcases hrr : flowLoop cs 0 rest (s0 + 1) with ⟨out', e2⟩
      rw [hrr] at h
      simp only [] at h
      rcases h with ⟨hout, he2⟩
      rw [← hout] at hso
      rcases List.mem_cons.mp hso with rfl | hso
      · have := @pyFlowSolution_zero cs s0 sol hz (by rw [hfs])
        rw [hfs] at this
        exact this
      · exact ih (s0 + 1) out' (by rw [hrr, he2]) so hso
    · simp at h

/-- An aborted tagged-scalar `rank` leaves `ordered_solutions` unchanged. -/
theorem pyRank_error_ordered (k : Kernel) (m : Promethee.Mat)
    (h : (k.rank m).2 ≠ none) :
    (k.rank m).1.ordered_solutions = k.ordered_solutions := by
  unfold Kernel.rank at h ⊢
  split at h
  · exact absurd rfl h
  next hng =>
    rw [if_neg hng]
    rcases hA : k.assign_values m with ⟨k1, e1⟩
    have hAf := pyAssign_fields k m
    rw [hA] at hAf
    simp only [] at hAf
    rw [hA] at h
    rcases e1 with _ | e1
    · simp only [] at h ⊢
      rcases hP : processCriteria k1.solutions k1.criteria with ⟨cs, w, e2⟩
      rw [hP] at h
      rcases e2 with _ | e2
      · simp only [] at h ⊢
        rcases hF : flowLoop cs (w * ((k1.solutions.length : ℚ) - 1)) k1.solutions 0
          with ⟨sols', e3⟩
        rw [hF] at h
        rcases e3 with _ | e3
        · exact absurd rfl h
        · exact hAf.2.2.2.1
      · exact hAf.2.2.2.1
    · exact hAf.2.2.2.1

/-- Decomposition of a successful non-guarded tagged-scalar `rank` call. -/
theorem pyRank_ok_decomp (k : Kernel) (m : Promethee.Mat)
    (hng : ¬ (k.nb_solutions < 2 ∨ k.nb_criteria = 0)) (hok : (k.rank m).2 = none) :
    ∃ k1 cs w,
      k.assign_values m = (k1, none) ∧
      processCriteria k1.solutions k1.criteria = (cs, w, none) ∧
      (flowLoop cs (w * ((k1.solutions.length : ℚ) - 1)) k1.solutions 0).2 = none ∧
      (k.rank m).1.solutions =
        (flowLoop cs (w * ((k1.solutions.length : ℚ) - 1)) k1.solutions 0).1 ∧
      k1.solutions = k.solutions ∧
      k1.criteria = (assignAll m k.nb_solutions k.criteria).1 := by
  unfold Kernel.rank
  rw [if_neg hng]
  rcases hA : k.assign_values m with ⟨k1, e1⟩
  have hAf := pyAssign_fields k m
  rw [hA] at hAf
  simp only [] at hAf
  rcases e1 with _ | e1
  · simp only []
    rcases hP : processCriteria k1.solutions k1.criteria with ⟨cs, w, e2⟩
    rcases e2 with _ | e2
    · simp only []
      rcases hF : flowLoop cs (w * ((k1.solutions.length : ℚ) - 1)) k1.solutions 0
        with ⟨sols', e3⟩
      rcases e3 with _ | e3
      · simp only []
        exact ⟨k1, cs, w, rfl, hP, by rw [hF], by rw [hF], hAf.2.2.1, hAf.2.2.2.2.1⟩
      · rw [Kernel.rank] at hok
        rw [if_neg hng] at hok
        rw [hA] at hok
        simp only [] at hok
        rw [hP] at hok
        simp only [] at hok
        rw [hF] at hok
        simp at hok
    · rw [Kernel.rank] at hok
      rw [if_neg hng] at hok
      rw [hA] at hok
      simp only [] at hok
      rw [hP] at hok
      simp at hok
  · rw [Kernel.rank] at hok
    rw [if_neg hng] at hok
    rw [hA] at hok
    simp at hok

/-- C7 amended: under numpy scalar semantics, a non-guarded `rank` call on
a kernel whose criteria all have nonnegative weight summing to zero never
fails fast in the claimed sense: either an exception is raised (leaving
`ordered_solutions` unchanged), or — when numpy scalars have propagated
into every flow sum — the zero division silently yields NaN and the call
completes with every solution's `fi`, `fi_plus` and `fi_minus` equal to
NaN. -/
theorem C7_zero_weight_nan_or_raise (k : Kernel) (m : Promethee.Mat)
    (hn : 2 ≤ k.nb_solutions) (hm : 1 ≤ k.nb_criteria)
    (hwpos : ∀ kc ∈ k.criteria, 0 ≤ kc.weight)
    (hwsum : (k.criteria.map KernelCriterion.weight).sum = 0) :
    ((k.rank m).2 ≠ none → (k.rank m).1.ordered_solutions = k.ordered_solutions) ∧
    ((k.rank m).2 = none → ∀ s ∈ (k.rank m).1.solutions,
      s.fi = PyVal.nan true ∧ s.fi_plus = PyVal.nan true ∧
        s.fi_minus = PyVal.nan true) := by
  refine ⟨pyRank_error_ordered k m, ?_⟩
  intro hok
  have hng : ¬ (k.nb_solutions < 2 ∨ k.nb_criteria = 0) := by omega
  rcases pyRank_ok_decomp k m hng hok with ⟨k1, cs, w, hA, hP, hFok, hsols, hk1s, hk1c⟩
  have hzmap : ∀ x ∈ k.criteria.map KernelCriterion.weight, x = 0 := by
    refine pySum_zero_of_nonneg ?_ hwsum
    intro y hy
    rcases List.mem_map.mp hy with ⟨kc, hkc, rfl⟩
    exact hwpos kc hkc
  have hz0 : ∀ kc ∈ k.criteria, kc.weight = 0 := fun kc hkc =>
    hzmap kc.weight (List.mem_map_of_mem _ hkc)
  have hmapcs : cs.map KernelCriterion.weight = k.criteria.map KernelCriterion.weight := by
    have h1 := pyProcess_weights k1.solutions k1.criteria
    rw [hP] at h1
    simp only [] at h1
    rw [h1, hk1c, pyAssignAll_weights]
  have hzcs : ∀ kc ∈ cs, kc.weight = 0 :=
    @Promethee.forall_of_map_eq KernelCriterion ℚ KernelCriterion.weight k.criteria cs
      hmapcs (fun q => q = 0) hz0
  have hw0 : w = 0 := by
    rw [pyProcess_weight_sum k1.solutions k1.criteria cs w hP, hk1c,
      pyAssignAll_weights, hwsum]
  have hdiv : w * ((k1.solutions.length : ℚ) - 1) = 0 := by
    rw [hw0, zero_mul]
  rw [hdiv] at hFok hsols
  intro s hs
  rw [hsols] at hs
  exact pyFlowLoop_zero hzcs k1.solutions 0 _ (by rw [← hFok]) s hs

/-- C7 counterexample: `rank` on a 3-solution, 3-criterion kernel with all
weights zero and the cyclic matrix does not fail: no exception reaches the
caller, every solution's flows are silently NaN, and `ordered_solutions`
is updated from its previous empty value to a full permutation. -/
theorem C7_counterexample :
    2 ≤ kernelCyc.nb_solutions ∧ 1 ≤ kernelCyc.nb_criteria ∧
    (kernelCyc.criteria.map KernelCriterion.weight).sum = 0 ∧
    kernelCyc.ordered_solutions = [] ∧
    (kernelCyc.rank matCyc).2 = none ∧
    ((kernelCyc.rank matCyc).1.solutions.map Solution.fi =
      [PyVal.nan true, PyVal.nan true, PyVal.nan true]) ∧
    (kernelCyc.rank matCyc).1.ordered_solutions.length = 3 := by
  norm_num [Kernel.rank, Kernel.new, Kernel.set_criterion, Kernel.assign_values, assignAll,
    assignCriterion, assignLoop, setCellValue, processCriteria, KernelCriterion.normalize,
    KernelCriterion.compute_fis, KernelCriterion.new, Cell.new, compute_pref, normalizeVals,
    fisInner, fisOuter, Promethee.LinearCriterion.new, Solution.new, matGet, kernelCyc,
    matCyc, critCyc, flowLoop, flowSolution, weightedSumPlus, weightedSumMinus, solutionCell,
    sortSolutions, List.insertionSort, List.orderedInsert, solGEb, py, npv,
    PyVal.add, PyVal.sub, PyVal.mul, PyVal.div, PyVal.pabs, PyVal.lt, PyVal.le, PyVal.peq,
    PyVal.isnp, List.replicate, List.set, List.foldl, List.zip, List.zipWith, List.drop,
    List.map, List.range, List.range_succ, List.get?, List.getD, List.sum_cons,
    abs_of_nonneg, abs_of_nonpos]

/-- Witness for the amended C7 on the cyclic fixture. -/
theorem C7_zero_weight_nan_or_raise_witness :
    2 ≤ kernelCyc.nb_solutions ∧ 1 ≤ kernelCyc.nb_criteria ∧
    (∀ kc ∈ kernelCyc.criteria, 0 ≤ kc.weight) ∧
    (kernelCyc.criteria.map KernelCriterion.weight).sum = 0 ∧
    (((kernelCyc.rank matCyc).2 ≠ none →
        (kernelCyc.rank matCyc).1.ordered_solutions = kernelCyc.ordered_solutions) ∧
      ((kernelCyc.rank matCyc).2 = none → ∀ s ∈ (kernelCyc.rank matCyc).1.solutions,
        s.fi = PyVal.nan true ∧ s.fi_plus = PyVal.nan true ∧
          s.fi_minus = PyVal.nan true)) :=
  have h2 : 2 ≤ kernelCyc.nb_solutions := by
    norm_num [kernelCyc, Kernel.set_criterion, Kernel.new, critCyc,
      Promethee.LinearCriterion.new, KernelCriterion.new, List.range, List.range_succ,
      List.map, List.set, List.get?]
  have h1 : 1 ≤ kernelCyc.nb_criteria := by
    norm_num [kernelCyc, Kernel.set_criterion, Kernel.new, critCyc,
      Promethee.LinearCriterion.new, KernelCriterion.new, List.range, List.range_succ,
      List.map, List.set, List.get?]
  have hwpos : ∀ kc ∈ kernelCyc.criteria, 0 ≤ kc.weight := by
    intro kc hkc
    simp only [kernelCyc, Kernel.set_criterion, Kernel.new, critCyc,
      Promethee.LinearCriterion.new, KernelCriterion.new, List.range, List.range_succ,
      List.map, List.set, List.get?] at hkc
    norm_num at hkc
    rcases hkc with rfl | rfl | rfl <;> norm_num
  have hwsum : (kernelCyc.criteria.map KernelCriterion.weight).sum = 0 := by
    norm_num [kernelCyc, Kernel.set_criterion, Kernel.new, critCyc,
      Promethee.LinearCriterion.new, KernelCriterion.new, List.range, List.range_succ,
      List.map, List.set, List.get?, List.sum_cons]
  ⟨h2, h1, hwpos, hwsum, C7_zero_weight_nan_or_raise kernelCyc matCyc h2 h1 hwpos hwsum⟩

end PyFloat

namespace Promethee

/-- Witness for C4 on the fixture criterion with cell values 0 and 1. -/
theorem C4_normalize_spec_witness :
    kcPrior.criterion = some critMax ∧ kcPrior.values ≠ [] ∧
    ∃ kc', kcPrior.normalize = Except.ok kc' :=
  have hc : kcPrior.criterion = some critMax := rfl
  have hne : kcPrior.values ≠ [] := by simp [kcPrior]
  ⟨hc, hne,
   (C4_normalize_spec kcPrior critMax hc hne).elim (fun kc' h => ⟨kc', h.1⟩)⟩

end Promethee
